import Mathlib

set_option maxHeartbeats 1000000

/-!
Verification of the document-manipulation core of the block-based task
editor: the merge engine, the split engine and the position mappers.  The
definitions below are shallow embeddings of the TypeScript functions in
src/lib/editor/tools.ts and src/lib/editor/utils/position.ts; JSON records
become Lean structures, JavaScript numbers used as positions become Int,
strings of text become lists of characters (JS code units), and optional
record fields become Option.
-/

/-- Attribute values stored in an attrs record (JSON primitive values,
compared with strict equality in the source). -/
inductive AttrV where
  | str (v : String)
  | int (v : Int)
  | bool (v : Bool)
  | null
deriving DecidableEq, Repr

/-- A JavaScript attrs record: key-value pairs (keys are unique in a real
JS object; the faithful translation of attrsEqual below operates on the
raw list). -/
abbrev Attrs := List (String × AttrV)

/-- PMMark from tools.ts: a formatting mark with a type tag and optional
attributes. -/
structure PMMark where
  type : String
  attrs : Option Attrs
deriving DecidableEq, Repr

/-- PMNode from tools.ts: a loosely typed ProseMirror JSON node.  All
fields except the type tag are optional, as in the source. -/
inductive PMNode where
  | mk (type : String) (attrs : Option Attrs) (content : Option (List PMNode))
       (text : Option (List Char)) (marks : Option (List PMMark))

/-- The node's type tag. -/
def PMNode.type : PMNode → String
  | .mk t _ _ _ _ => t

/-- The node's attrs field. -/
def PMNode.attrs : PMNode → Option Attrs
  | .mk _ a _ _ _ => a

/-- The node's content field. -/
def PMNode.content : PMNode → Option (List PMNode)
  | .mk _ _ c _ _ => c

/-- The node's text field. -/
def PMNode.text : PMNode → Option (List Char)
  | .mk _ _ _ x _ => x

/-- The node's marks field. -/
def PMNode.marks : PMNode → Option (List PMMark)
  | .mk _ _ _ _ m => m

/-- Replace the text field (models the in-place mutation prev.text = ...). -/
def PMNode.withText : PMNode → Option (List Char) → PMNode
  | .mk t a c _ m, x => .mk t a c x m

/-- Replace the content field (models prev.content = ...). -/
def PMNode.withContent : PMNode → Option (List PMNode) → PMNode
  | .mk t a _ x m, c => .mk t a c x m

/-- inline.text with the empty-string default, as in (inline.text or ''). -/
def textD (n : PMNode) : List Char := n.text.getD []

/-- PMDoc from tools.ts.  The constant root tag 'doc' is written by the
source on every output and never read, so only the content field is
modelled; a missing content array (a malformed document) is content none. -/
structure PMDoc where
  content : Option (List PMNode)

instance : Inhabited PMNode := ⟨.mk "" none none none none⟩

/-- isTextNode from tools.ts: a node of type 'text' whose text field is a
string. -/
def isTextNode (n : PMNode) : Bool :=
  n.type == "text" && n.text.isSome

/-- attrsEqual from tools.ts: both records default to empty, the key
counts must agree and every key of the first must map to a strictly equal
value in the second. -/
def attrsEqual (a b : Option Attrs) : Bool :=
  let aa := a.getD []
  let bb := b.getD []
  aa.length == bb.length && aa.all (fun kv => bb.lookup kv.1 == some kv.2)

/-- marksEqual from tools.ts: both absent means equal; otherwise both must
be arrays of the same length equal mark-by-mark at each index (type tags
equal and attrsEqual attributes). -/
def marksEqual (a b : Option (List PMMark)) : Bool :=
  match a, b with
  | none, none => true
  | some x, some y =>
      x.length == y.length &&
      (x.zip y).all (fun p => p.1.type == p.2.type && attrsEqual p.1.attrs p.2.attrs)
  | _, _ => false

mutual

/-- Structural size of a node, used as the termination measure for the
recursive merge and normalization functions. -/
def nsize : PMNode → Nat
  | .mk _ _ none _ _ => 1
  | .mk _ _ (some c) _ _ => 1 + lsize c

/-- Structural size of a node list. -/
def lsize : List PMNode → Nat
  | [] => 0
  | n :: ns => nsize n + lsize ns

end

theorem nsize_pos (n : PMNode) : 0 < nsize n := by
  cases n with
  | mk t a c x m => cases c <;> simp [nsize]

theorem nsize_content {n : PMNode} {c : List PMNode} (h : n.content = some c) :
    nsize n = 1 + lsize c := by
  cases n with
  | mk t a c' x m => cases c' <;> simp_all [nsize, PMNode.content]

theorem lsize_cons (n : PMNode) (ns : List PMNode) :
    lsize (n :: ns) = nsize n + lsize ns := by
  simp [lsize]

theorem lsize_append (l₁ l₂ : List PMNode) :
    lsize (l₁ ++ l₂) = lsize l₁ + lsize l₂ := by
  induction l₁ with
  | nil => simp [lsize]
  | cons n ns ih => simp [lsize, ih]; omega

theorem nsize_le_of_mem {n : PMNode} {l : List PMNode} (h : n ∈ l) :
    nsize n ≤ lsize l := by
  induction l with
  | nil => cases h
  | cons m ms ih =>
      rcases List.mem_cons.mp h with h | h
      · subst h; simp only [lsize]; omega
      · have := ih h; simp only [lsize]; omega

theorem nsize_withText (n : PMNode) (x : Option (List Char)) :
    nsize (n.withText x) = nsize n := by
  cases n with
  | mk t a c x' m => cases c <;> simp [PMNode.withText, nsize]

theorem nsize_withContent_some (n : PMNode) (c : List PMNode) :
    nsize (n.withContent (some c)) = 1 + lsize c := by
  cases n with
  | mk t a c' x m => simp [PMNode.withContent, nsize]

mutual

/-- The loop body shared by mergeInlineArrays and the merging pass of
normalizeInlineTextNodes in tools.ts: append one node of the right-hand
array onto the accumulated result.  Adjacent text nodes with equal marks
are concatenated in place; adjacent non-text nodes with the same type and
attrs that both carry content arrays are merged recursively; otherwise the
node is appended as-is. -/
def mergeOne (result : List PMNode) (node : PMNode) : List PMNode :=
  match result.getLast? with
  | none => result ++ [node]
  | some prev =>
    if isTextNode prev && isTextNode node && marksEqual prev.marks node.marks then
      result.dropLast ++ [prev.withText (some (textD prev ++ textD node))]
    else
      match hp : prev.content, hn : node.content with
      | some pc, some nc =>
          if !isTextNode prev && !isTextNode node && prev.type == node.type &&
              attrsEqual prev.attrs node.attrs then
            result.dropLast ++ [prev.withContent (some (mergeInlineArrays pc nc))]
          else
            result ++ [node]
      | _, _ => result ++ [node]
termination_by 2 * nsize node
decreasing_by
  have := nsize_content hn
  omega

/-- mergeInlineArrays from tools.ts: the result starts as a copy of the
left array and every node of the right array is folded in by mergeOne. -/
def mergeInlineArrays : List PMNode → List PMNode → List PMNode
  | left, [] => left
  | left, node :: rest => mergeInlineArrays (mergeOne left node) rest
termination_by _ right => 2 * lsize right + 1
decreasing_by
  · simp only [lsize_cons]; have := nsize_pos node; omega
  · simp only [lsize_cons]; have := nsize_pos node; omega

end

theorem mergeInlineArrays_nil (acc : List PMNode) :
    mergeInlineArrays acc [] = acc := by
  rw [mergeInlineArrays]

theorem mergeInlineArrays_cons (acc : List PMNode) (node : PMNode)
    (rest : List PMNode) :
    mergeInlineArrays acc (node :: rest) =
      mergeInlineArrays (mergeOne acc node) rest := by
  rw [mergeInlineArrays]

theorem getLast?_decomp {l : List PMNode} {p : PMNode} (h : l.getLast? = some p) :
    l = l.dropLast ++ [p] := by
  rcases l.eq_nil_or_concat with rfl | ⟨ys, y, rfl⟩
  · simp at h
  · simp_all

theorem merge_size_bound (k : Nat) :
    (∀ acc n, nsize n ≤ k → lsize (mergeOne acc n) ≤ lsize acc + nsize n) ∧
    (∀ r acc, lsize r ≤ k → lsize (mergeInlineArrays acc r) ≤ lsize acc + lsize r) := by
  induction k using Nat.strong_induction_on with
  | _ k ih =>
    have hA : ∀ acc n, nsize n ≤ k → lsize (mergeOne acc n) ≤ lsize acc + nsize n := by
      intro acc n hn
      rw [mergeOne]
      cases hlast : acc.getLast? with
      | none => simp [lsize_append, lsize_cons, lsize]
      | some prev =>
        have hacc : acc = acc.dropLast ++ [prev] := getLast?_decomp hlast
        have hsz : lsize acc = lsize acc.dropLast + nsize prev := by
          conv_lhs => rw [hacc]
          simp [lsize_append, lsize_cons, lsize]
        by_cases h1 : (isTextNode prev && isTextNode n && marksEqual prev.marks n.marks) = true
        · simp only [h1, if_true]
          simp [lsize_append, lsize_cons, lsize, nsize_withText]
          have := nsize_pos n
          omega
        · simp only [h1, if_false, Bool.false_eq_true]
          cases hp : prev.content with
          | none => simp [lsize_append, lsize_cons, lsize]
          | some pc =>
            cases hc : n.content with
            | none => simp [lsize_append, lsize_cons, lsize]
            | some nc =>
              by_cases h2 : (!isTextNode prev && !isTextNode n && prev.type == n.type &&
                  attrsEqual prev.attrs n.attrs) = true
              · simp only [h2, if_true]
                have hnc : lsize nc < k := by
                  have := nsize_content hc
                  omega
                have hrec := (ih (lsize nc) hnc).2 nc pc le_rfl
                have hps : nsize prev = 1 + lsize pc := nsize_content hp
                have hns : nsize n = 1 + lsize nc := nsize_content hc
                simp [lsize_append, lsize_cons, lsize, nsize_withContent_some]
                omega
              · simp only [h2, if_false, Bool.false_eq_true]
                simp [lsize_append, lsize_cons, lsize]
    refine ⟨hA, ?_⟩
    intro r
    induction r with
    | nil => intro acc _; rw [mergeInlineArrays]; simp [lsize]
    | cons node rest ihr =>
      intro acc hr
      rw [mergeInlineArrays_cons]
      simp only [lsize_cons] at hr ⊢
      have hnode : nsize node ≤ k := by
        have := nsize_pos node
        omega
      have h1 := hA acc node hnode
      have h2 := ihr (mergeOne acc node) (by omega)
      omega

theorem lsize_mergeOne (acc : List PMNode) (n : PMNode) :
    lsize (mergeOne acc n) ≤ lsize acc + nsize n :=
  (merge_size_bound (nsize n)).1 acc n le_rfl

theorem lsize_mergeInlineArrays (acc r : List PMNode) :
    lsize (mergeInlineArrays acc r) ≤ lsize acc + lsize r :=
  (merge_size_bound (lsize r)).2 r acc le_rfl

mutual

/-- The per-block body of normalizeInlineTextNodes in tools.ts: a block
without a content array is returned unchanged; otherwise its children are
folded by the same merging loop as mergeInlineArrays and every child that
itself carries a content array is normalized recursively (the source wraps
such a child in a one-block document and recurses). -/
def normalizeBlockNode (block : PMNode) : PMNode :=
  match h : block.content with
  | none => block
  | some c => block.withContent (some (normMap (mergeInlineArrays [] c)))
termination_by 2 * nsize block
decreasing_by
  have h1 := lsize_mergeInlineArrays [] c
  have h2 := nsize_content h
  simp only [lsize] at h1
  omega

/-- Maps normalizeBlockNode over a merged child list (the final map in the
per-block body of normalizeInlineTextNodes). -/
def normMap : List PMNode → List PMNode
  | [] => []
  | n :: ns => normalizeBlockNode n :: normMap ns
termination_by l => 2 * lsize l + 1
decreasing_by
  · simp only [lsize_cons]; have := nsize_pos n; omega
  · simp only [lsize_cons]; have := nsize_pos n; omega

end

theorem normMap_nil : normMap [] = [] := by rw [normMap]

theorem normMap_cons (n : PMNode) (ns : List PMNode) :
    normMap (n :: ns) = normalizeBlockNode n :: normMap ns := by
  rw [normMap]

theorem normMap_eq_map (l : List PMNode) : normMap l = l.map normalizeBlockNode := by
  induction l with
  | nil => simp [normMap_nil]
  | cons n ns ih => simp [normMap_cons, ih]

theorem normalizeBlockNode_of_content_none {n : PMNode} (h : n.content = none) :
    normalizeBlockNode n = n := by
  rw [normalizeBlockNode]
  split
  · rfl
  · simp_all

theorem normalizeBlockNode_of_content_some {n : PMNode} {c : List PMNode}
    (h : n.content = some c) :
    normalizeBlockNode n =
      n.withContent (some (normMap (mergeInlineArrays [] c))) := by
  rw [normalizeBlockNode]
  split <;> simp_all

/-- normalizeInlineTextNodes from tools.ts, as a function on documents: a
document without a content array is left unchanged, otherwise each block
is rewritten by the per-block body. -/
def normalizeInlineTextNodes (doc : PMDoc) : PMDoc :=
  match doc.content with
  | none => doc
  | some blocks => ⟨some (normMap blocks)⟩

/-- mergeDocuments from tools.ts.  Null or undefined inputs become the
empty document, a missing content array becomes the empty block list; if
both documents have blocks and the boundary blocks have the same type and
equal attrs they are merged by mergeInlineArrays, otherwise the block
lists are concatenated; the result is always normalized. -/
def mergeDocuments (a b : Option PMDoc) : PMDoc :=
  let docA := a.getD ⟨some []⟩
  let docB := b.getD ⟨some []⟩
  let contentA := docA.content.getD []
  let contentB := docB.content.getD []
  if contentA.isEmpty then
    normalizeInlineTextNodes ⟨some contentB⟩
  else if contentB.isEmpty then
    normalizeInlineTextNodes ⟨some contentA⟩
  else
    let lastA := contentA.getLastD default
    let firstB := contentB.headD default
    if lastA.type == firstB.type && attrsEqual lastA.attrs firstB.attrs then
      let leftContent := lastA.content.getD []
      let rightContent := firstB.content.getD []
      let mergedContent := mergeInlineArrays leftContent rightContent
      let mergedBlock := lastA.withContent (some mergedContent)
      normalizeInlineTextNodes
        ⟨some (contentA.dropLast ++ mergedBlock :: contentB.tail)⟩
    else
      normalizeInlineTextNodes ⟨some (contentA ++ contentB)⟩

/-- The per-block length used by computeBlockLengths in tools.ts: text
characters count their string length, any non-text inline node counts 1;
a block without a content array has length 0. -/
def blockLength (block : PMNode) : Nat :=
  match block.content with
  | none => 0
  | some c => (c.map (fun n => if isTextNode n then (textD n).length else 1)).sum

/-- The total of computeBlockLengths in tools.ts: the sum of all block
lengths of the document. -/
def totalLength (blocks : List PMNode) : Nat :=
  (blocks.map blockLength).sum

/-- The scanning loop of absolutePosToBlockOffset in tools.ts: walk the
block lengths accumulating until the accumulated length reaches pos. -/
def atbWalk (pos : Int) : Int → Nat → List Nat → Option (Nat × Int)
  | _, _, [] => none
  | accumulated, i, len :: rest =>
      if accumulated + (len : Int) ≥ pos then some (i, pos - accumulated)
      else atbWalk pos (accumulated + (len : Int)) (i + 1) rest

/-- absolutePosToBlockOffset from tools.ts (the total that the source also
returns is recoverable as totalLength, so only the coordinate pair is
returned here). -/
def absolutePosToBlockOffset (blocks : List PMNode) (pos : Int) : Nat × Int :=
  let lens := blocks.map blockLength
  let total : Int := totalLength blocks
  if pos ≤ 0 then (0, 0)
  else if pos ≥ total || blocks.isEmpty then
    (blocks.length - 1, (lens.getLastD 0 : Nat))
  else
    match atbWalk pos 0 0 lens with
    | some r => r
    | none => (blocks.length - 1, (lens.getLastD 0 : Nat))

/-- The text-node constructor used inside splitBlockAtOffset in tools.ts:
a fresh text node carrying the given text and the marks of the node being
split (and no other fields). -/
def createTextNode (inline : PMNode) (txt : List Char) : PMNode :=
  PMNode.mk "text" none none (some txt) inline.marks

/-- The scanning loop of splitBlockAtOffset in tools.ts.  Once remaining
is spent every node goes right; a text node fitting in remaining goes left
whole; a text node longer than remaining is cut, both halves keep the
marks and empty halves are dropped; a non-text node counts 1 and goes left
while remaining is positive. -/
def splitWalk (remaining : Int) : List PMNode → List PMNode × List PMNode
  | [] => ([], [])
  | inline :: rest =>
    if remaining ≤ 0 then
      let lr := splitWalk remaining rest
      (lr.1, inline :: lr.2)
    else if isTextNode inline then
      let text := textD inline
      if (text.length : Int) ≤ remaining then
        let lr := splitWalk (remaining - text.length) rest
        (inline :: lr.1, lr.2)
      else
        let leftText := createTextNode inline (text.take remaining.toNat)
        let rightText := createTextNode inline (text.drop remaining.toNat)
        let lr := splitWalk 0 rest
        ((if 0 < (textD leftText).length then [leftText] else []) ++ lr.1,
         (if 0 < (textD rightText).length then [rightText] else []) ++ lr.2)
    else
      if remaining > 0 then
        let lr := splitWalk (remaining - 1) rest
        (inline :: lr.1, lr.2)
      else
        let lr := splitWalk remaining rest
        (lr.1, inline :: lr.2)

/-- splitBlockAtOffset from tools.ts: both halves inherit the block's type
and attrs; a block without content (or with empty content) splits into two
empty blocks, otherwise the inline content is divided by splitWalk. -/
def splitBlockAtOffset (block : PMNode) (offset : Int) : PMNode × PMNode :=
  let createBlock : List PMNode → PMNode := fun content =>
    PMNode.mk block.type block.attrs (some content) none none
  match block.content with
  | none => (createBlock [], createBlock [])
  | some c =>
    if c.isEmpty then (createBlock [], createBlock [])
    else
      let lr := splitWalk offset c
      (createBlock lr.1, createBlock lr.2)

/-- The position argument of splitDocumentAt: either an absolute position
(a number) or a blockIndex offset pair. -/
inductive SplitPos where
  | abs (pos : Int)
  | coord (blockIndex : Int) (offset : Int)

/-- The block list a document argument denotes: a null document or one
without a content array has no blocks. -/
def docBlocks (doc : Option PMDoc) : List PMNode :=
  match doc with
  | none => []
  | some d => d.content.getD []

/-- splitDocumentAt from tools.ts: a null document or one without a
content array has no blocks; an absolute position is converted by
absolutePosToBlockOffset; the block index is clamped into range and the
offset clamped to be nonnegative; blocks before the target go left, blocks
after go right, the target block is split, and both halves are
normalized. -/
def splitDocumentAt (doc : Option PMDoc) (pos : SplitPos) : PMDoc × PMDoc :=
  let blocks := docBlocks doc
  let target : Int × Int := match pos with
    | .abs p =>
        let r := absolutePosToBlockOffset blocks p
        ((r.1 : Int), r.2)
    | .coord bi off => (bi, off)
  let blockIndex : Int := max 0 (min target.1 (max 0 ((blocks.length : Int) - 1)))
  let offset : Int := max 0 target.2
  if blocks.isEmpty then (⟨some []⟩, ⟨some []⟩)
  else
    let bi := blockIndex.toNat
    let lr := splitBlockAtOffset (blocks.getD bi default) offset
    (normalizeInlineTextNodes ⟨some (blocks.take bi ++ [lr.1])⟩,
     normalizeInlineTextNodes ⟨some (lr.2 :: blocks.drop (bi + 1))⟩)

/-- The helper _childTextLength from position.ts: a text child counts its
string length, any other child counts 1. -/
def childTextLength (child : PMNode) : Nat :=
  if isTextNode child then (textD child).length else 1

mutual

/-- ProseMirror nodeSize for the model: a text node has the size of its
text, a node with a content array has size 2 plus its content size (the
open and close tokens), and any other leaf has size 1. -/
def pmNodeSize : PMNode → Nat
  | .mk t _ none x _ =>
      if t == "text" && x.isSome then (x.getD []).length else 1
  | .mk t _ (some c) x _ =>
      if t == "text" && x.isSome then (x.getD []).length else 2 + pmSizeList c

/-- ProseMirror content size of a node sequence: the sum of the node
sizes.  For the document node this is doc.content.size. -/
def pmSizeList : List PMNode → Nat
  | [] => 0
  | n :: ns => pmNodeSize n + pmSizeList ns

end

/-- The inner child walk of computeAbsolutePosForBlockOffset in
position.ts: find the first child whose span reaches ofs and return the
clamped absolute position inside it; none when the loop runs out. -/
def capWalk (pos ofs : Int) : Int → List PMNode → Option Int
  | _, [] => none
  | accum, child :: rest =>
    let childLen : Int := childTextLength child
    if accum + childLen ≥ ofs then
      some (pos + accum + max 0 (min childLen (ofs - accum)))
    else capWalk pos ofs (accum + childLen) rest

/-- computeAbsolutePosForBlockOffset from position.ts, on the document's
block list (a null editor gives 1).  ProseMirror positions are 1-based:
the block index is clamped, the offset clamped to be nonnegative, the
sizes of the blocks before the target are summed, and the child walk finds
the offset inside the target block, defaulting to the end of the block. -/
def computeAbsolutePosForBlockOffset (ed : Option (List PMNode))
    (blockIndex offset : Int) : Int :=
  match ed with
  | none => 1
  | some blocks =>
    let numBlocks : Int := blocks.length
    let bi : Int := max 0 (min blockIndex (numBlocks - 1))
    let ofs : Int := max 0 offset
    let pos : Int := 1 + (pmSizeList (blocks.take bi.toNat) : Int)
    if bi ≥ numBlocks then (pmSizeList blocks : Int)
    else
      match blocks.get? bi.toNat with
      | none => (pmSizeList blocks : Int)
      | some block =>
        match capWalk pos ofs 0 (block.content.getD []) with
        | some r => r
        | none => pos + (pmNodeSize block : Int) - 1

/-- The inner child walk of computeBlockOffsetForAbsolutePos in
position.ts: return innerPos as soon as it falls short of the running
child span, else the accumulated length of all children. -/
def cboInner (innerPos : Int) : Int → List PMNode → Int
  | accum, [] => accum
  | accum, child :: rest =>
    let childLen : Int := childTextLength child
    if innerPos < accum + childLen then innerPos
    else cboInner innerPos (accum + childLen) rest

/-- The block loop of computeBlockOffsetForAbsolutePos in position.ts:
find the block whose 1-based span contains pos and resolve the offset
inside it; past the last block the fallback is the last index with offset
0. -/
def cboBlocks (pos : Int) (fallback : Nat) : Nat → Int → List PMNode → Nat × Int
  | _, _, [] => (fallback, 0)
  | i, running, block :: rest =>
    let ns : Int := pmNodeSize block
    let blockStart := running
    let blockEnd := running + ns - 1
    if blockStart ≤ pos ∧ pos ≤ blockEnd then
      let innerPos := pos - blockStart
      if innerPos < 0 then (i, 0)
      else (i, cboInner innerPos 0 (block.content.getD []))
    else cboBlocks pos fallback (i + 1) (running + ns) rest

/-- computeBlockOffsetForAbsolutePos from position.ts, on the document's
block list (a null editor gives block 0, offset 0).  The position is
clamped into the 1-based range [1, content.size] and the containing block
located by the block loop. -/
def computeBlockOffsetForAbsolutePos (ed : Option (List PMNode))
    (absPos : Int) : Nat × Int :=
  match ed with
  | none => (0, 0)
  | some blocks =>
    let size : Int := pmSizeList blocks
    let pos := max 1 (min absPos size)
    cboBlocks pos (blocks.length - 1) 0 1 blocks

/-- The text-merge condition of the merging loop: both nodes are text and
their marks compare equal. -/
def mergeableT (a b : PMNode) : Bool :=
  isTextNode a && isTextNode b && marksEqual a.marks b.marks

/-- The in-place text concatenation of the merging loop: the left node
with the two texts joined. -/
def mergeT (a b : PMNode) : PMNode :=
  a.withText (some (textD a ++ textD b))

/-- The container-merge condition of the merging loop (besides both nodes
having content arrays). -/
def mergeableC (a b : PMNode) : Bool :=
  !isTextNode a && !isTextNode b && a.type == b.type && attrsEqual a.attrs b.attrs

theorem mergeOne_nil (n : PMNode) : mergeOne [] n = [n] := by
  rw [mergeOne]
  rfl

theorem mergeOne_text {acc : List PMNode} {p : PMNode} (n : PMNode)
    (hl : acc.getLast? = some p) (ht : mergeableT p n = true) :
    mergeOne acc n = acc.dropLast ++ [mergeT p n] := by
  rw [mergeOne, hl]
  simp only [mergeableT] at ht
  simp [ht, mergeT]

theorem mergeOne_container {acc : List PMNode} {p : PMNode} {pc nc : List PMNode}
    (n : PMNode) (hl : acc.getLast? = some p) (ht : mergeableT p n = false)
    (hpc : p.content = some pc) (hnc : n.content = some nc)
    (hc : mergeableC p n = true) :
    mergeOne acc n = acc.dropLast ++ [p.withContent (some (mergeInlineArrays pc nc))] := by
  rw [mergeOne, hl]
  simp only [mergeableT] at ht
  simp only [ht, Bool.false_eq_true, if_false]
  simp only [mergeableC] at hc
  split
  · rename_i pc' nc' hpc' hnc'
    rw [hpc] at hpc'
    rw [hnc] at hnc'
    cases hpc'
    cases hnc'
    simp [hc]
  · rename_i hdead
    have hd : ∀ pc nc : List PMNode, p.content = some pc → ¬n.content = some nc := by
      simpa using hdead
    exact absurd hnc (hd pc nc hpc)

theorem mergeOne_push {acc : List PMNode} {p : PMNode} (n : PMNode)
    (hl : acc.getLast? = some p) (ht : mergeableT p n = false)
    (hrest : p.content = none ∨ n.content = none ∨ mergeableC p n = false) :
    mergeOne acc n = acc ++ [n] := by
  rw [mergeOne, hl]
  simp only [mergeableT] at ht
  simp only [ht, Bool.false_eq_true, if_false]
  split
  · rename_i pc' nc' hpc' hnc'
    rcases hrest with h | h | h
    · rw [h] at hpc'; cases hpc'
    · rw [h] at hnc'; cases hnc'
    · simp only [mergeableC] at h
      simp [h]
  · rfl

theorem mergeInlineArrays_append (acc xs ys : List PMNode) :
    mergeInlineArrays acc (xs ++ ys) =
      mergeInlineArrays (mergeInlineArrays acc xs) ys := by
  induction xs generalizing acc with
  | nil => simp [mergeInlineArrays_nil]
  | cons x xs ih => simp [mergeInlineArrays_cons, ih]

theorem mergeInlineArrays_singleton (acc : List PMNode) (n : PMNode) :
    mergeInlineArrays acc [n] = mergeOne acc n := by
  rw [mergeInlineArrays_cons, mergeInlineArrays_nil]

/-- Flat inline lists: no node carries a content array (the shape of block
content in the data model, where inline nodes are text runs and atomic
reference nodes). -/
def FlatL (l : List PMNode) : Prop := ∀ n ∈ l, n.content = none

theorem lookup_mem {k : String} {v : AttrV} {l : Attrs}
    (h : l.lookup k = some v) : (k, v) ∈ l := by
  induction l with
  | nil => simp [List.lookup] at h
  | cons kv rest ih =>
    cases kv with
    | mk k0 v0 =>
      rw [List.lookup_cons] at h
      by_cases hk : (k == k0) = true
      · simp [hk] at h
        subst h
        simp [(by simpa using hk : k = k0)]
      · simp [hk] at h
        simp only [List.mem_cons]
        exact Or.inr (ih h)

theorem attrsEqual_trans {a b c : Option Attrs}
    (h1 : attrsEqual a b = true) (h2 : attrsEqual b c = true) :
    attrsEqual a c = true := by
  simp only [attrsEqual, Bool.and_eq_true, beq_iff_eq, List.all_eq_true] at h1 h2 ⊢
  refine ⟨h1.1.trans h2.1, ?_⟩
  intro kv hkv
  have hb : (b.getD []).lookup kv.1 = some kv.2 := by
    have := h1.2 kv hkv
    simpa using this
  have hmem : (kv.1, kv.2) ∈ b.getD [] := lookup_mem hb
  have := h2.2 (kv.1, kv.2) hmem
  simpa using this

theorem marksEqual_trans {a b c : Option (List PMMark)}
    (h1 : marksEqual a b = true) (h2 : marksEqual b c = true) :
    marksEqual a c = true := by
  have key : ∀ (x y z : List PMMark), marksEqual (some x) (some y) = true →
      marksEqual (some y) (some z) = true → marksEqual (some x) (some z) = true := by
    intro x
    induction x with
    | nil =>
      intro y z h1 h2
      simp only [marksEqual, Bool.and_eq_true, beq_iff_eq, List.all_eq_true] at h1 h2 ⊢
      have hy : y = [] := by
        have := h1.1; simpa using List.length_eq_zero.mp this.symm
      subst hy
      have hz : z = [] := by
        have := h2.1; simpa using List.length_eq_zero.mp this.symm
      subst hz
      simp
    | cons m x' ih =>
      intro y z h1 h2
      cases y with
      | nil => simp [marksEqual] at h1
      | cons my y' =>
        cases z with
        | nil => simp [marksEqual] at h2
        | cons mz z' =>
          simp only [marksEqual, Bool.and_eq_true, beq_iff_eq, List.length_cons,
            List.zip_cons_cons, List.all_cons] at h1 h2 ⊢
          obtain ⟨hl1, hh1, ht1⟩ := h1
          obtain ⟨hl2, hh2, ht2⟩ := h2
          refine ⟨by omega, ?_, ?_⟩
          · exact ⟨hh1.1.trans hh2.1, attrsEqual_trans hh1.2 hh2.2⟩
          · have hx : marksEqual (some x') (some z') = true := by
              apply ih y'
              · simp only [marksEqual, Bool.and_eq_true, beq_iff_eq]
                exact ⟨by omega, ht1⟩
              · simp only [marksEqual, Bool.and_eq_true, beq_iff_eq]
                exact ⟨by omega, ht2⟩
            simp only [marksEqual, Bool.and_eq_true] at hx
            exact hx.2
  match a, b, c with
  | none, none, none => simp [marksEqual]
  | some x, some y, some z => exact key x y z h1 h2
  | none, some _, _ => simp [marksEqual] at h1
  | some _, none, _ => simp [marksEqual] at h1
  | none, none, some _ => simp [marksEqual] at h2

@[simp] theorem type_withText (n : PMNode) (x : Option (List Char)) :
    (n.withText x).type = n.type := by
  cases n; rfl

@[simp] theorem attrs_withText (n : PMNode) (x : Option (List Char)) :
    (n.withText x).attrs = n.attrs := by
  cases n; rfl

@[simp] theorem content_withText (n : PMNode) (x : Option (List Char)) :
    (n.withText x).content = n.content := by
  cases n; rfl

@[simp] theorem text_withText (n : PMNode) (x : Option (List Char)) :
    (n.withText x).text = x := by
  cases n; rfl

@[simp] theorem marks_withText (n : PMNode) (x : Option (List Char)) :
    (n.withText x).marks = n.marks := by
  cases n; rfl

@[simp] theorem type_withContent (n : PMNode) (c : Option (List PMNode)) :
    (n.withContent c).type = n.type := by
  cases n; rfl

@[simp] theorem attrs_withContent (n : PMNode) (c : Option (List PMNode)) :
    (n.withContent c).attrs = n.attrs := by
  cases n; rfl

@[simp] theorem content_withContent (n : PMNode) (c : Option (List PMNode)) :
    (n.withContent c).content = c := by
  cases n; rfl

@[simp] theorem text_withContent (n : PMNode) (c : Option (List PMNode)) :
    (n.withContent c).text = n.text := by
  cases n; rfl

@[simp] theorem marks_withContent (n : PMNode) (c : Option (List PMNode)) :
    (n.withContent c).marks = n.marks := by
  cases n; rfl

@[simp] theorem withText_withText (n : PMNode) (x y : Option (List Char)) :
    (n.withText x).withText y = n.withText y := by
  cases n; rfl

/-- attrs record with no duplicate keys (every real JS object satisfies
this; the key-count comparison of attrsEqual is only a faithful record
equality under it). -/
def attrsND (a : Option Attrs) : Prop := ((a.getD []).map Prod.fst).Nodup

/-- every mark of the list has a duplicate-free attrs record. -/
def marksND (m : Option (List PMMark)) : Prop :=
  ∀ mk0 ∈ m.getD [], attrsND mk0.attrs

theorem lookup_self {l : Attrs} (h : (l.map Prod.fst).Nodup) :
    ∀ kv ∈ l, l.lookup kv.1 = some kv.2 := by
  induction l with
  | nil => intro kv hkv; cases hkv
  | cons kv0 rest ih =>
    intro kv hkv
    obtain ⟨k0, v0⟩ := kv0
    simp only [List.map_cons, List.nodup_cons] at h
    rcases List.mem_cons.mp hkv with rfl | hmem
    · simp [List.lookup_cons]
    · have hk : kv.1 ≠ k0 := by
        intro he
        exact h.1 (he ▸ List.mem_map_of_mem Prod.fst hmem)
      have hbeq : (kv.1 == k0) = false := by simpa using hk
      rw [List.lookup_cons, hbeq]
      exact ih h.2 kv hmem

theorem attrsEqual_refl {a : Option Attrs} (h : attrsND a) :
    attrsEqual a a = true := by
  simp only [attrsEqual, Bool.and_eq_true, beq_iff_eq, List.all_eq_true]
  refine ⟨trivial, ?_⟩
  intro kv hkv
  simpa using lookup_self h kv hkv

theorem marksEqual_refl {m : Option (List PMMark)} (h : marksND m) :
    marksEqual m m = true := by
  cases m with
  | none => simp [marksEqual]
  | some ms =>
    simp only [marksND, Option.getD_some] at h
    simp only [marksEqual, Bool.and_eq_true, beq_iff_eq, List.all_eq_true]
    refine ⟨trivial, ?_⟩
    intro p hp
    induction ms with
    | nil => cases hp
    | cons m0 rest ih =>
      rw [List.zip_cons_cons] at hp
      rcases List.mem_cons.mp hp with rfl | hmem
      · simp only [Bool.and_eq_true, beq_iff_eq]
        exact ⟨trivial, attrsEqual_refl (h m0 (by simp))⟩
      · exact ih (fun mk0 hmk0 => h mk0 (List.mem_cons_of_mem _ hmk0)) hmem

theorem isTextNode_mergeT {p : PMNode} (x : PMNode) (h : isTextNode p = true) :
    isTextNode (mergeT p x) = true := by
  simp only [isTextNode, Bool.and_eq_true, beq_iff_eq] at h ⊢
  simp [mergeT, h.1]

theorem mergeableT_mergeT_right (q : PMNode) {p : PMNode} (x : PMNode)
    (h : isTextNode p = true) :
    mergeableT q (mergeT p x) = mergeableT q p := by
  simp only [mergeableT, isTextNode_mergeT x h, h]
  simp [mergeT]

/-- Merging a text node and then a second text node mergeable with it is
the same as merging their concatenation in one step. -/
theorem mergeOne_mergeOne_text (A : List PMNode) {p x : PMNode}
    (hpc : p.content = none) (hm : mergeableT p x = true) :
    mergeOne (mergeOne A p) x = mergeOne A (mergeT p x) := by
  have hpt : isTextNode p = true := by
    simp only [mergeableT, Bool.and_eq_true] at hm
    exact hm.1.1
  cases hlast : A.getLast? with
  | none =>
    have hA : A = [] := List.getLast?_eq_none_iff.mp hlast
    subst hA
    rw [mergeOne_nil, mergeOne_nil]
    rw [mergeOne_text x (by simp) hm]
    rfl
  | some q =>
    by_cases hqp : mergeableT q p = true
    · have h1 : mergeOne A p = A.dropLast ++ [mergeT q p] := mergeOne_text p hlast hqp
      rw [h1]
      have hql : (A.dropLast ++ [mergeT q p]).getLast? = some (mergeT q p) :=
        List.getLast?_concat _
      have hqt : isTextNode q = true := by
        simp only [mergeableT, Bool.and_eq_true] at hqp
        exact hqp.1.1
      have hmerge2 : mergeableT (mergeT q p) x = true := by
        simp only [mergeableT, Bool.and_eq_true] at hqp hm ⊢
        refine ⟨⟨isTextNode_mergeT p hqt, hm.1.2⟩, ?_⟩
        simp only [mergeT, marks_withText]
        exact marksEqual_trans hqp.2 hm.2
      rw [mergeOne_text x hql hmerge2]
      rw [List.dropLast_concat]
      rw [mergeOne_text (mergeT p x) hlast (by rw [mergeableT_mergeT_right q x hpt]; exact hqp)]
      congr 1
      simp [mergeT, textD]
    · have hqp' : mergeableT q p = false := by simpa using hqp
      have h1 : mergeOne A p = A ++ [p] :=
        mergeOne_push p hlast hqp' (Or.inr (Or.inl hpc))
      rw [h1]
      rw [mergeOne_text x (List.getLast?_concat _) hm, List.dropLast_concat]
      have hmmw : mergeableT q (mergeT p x) = false := by
        rw [mergeableT_mergeT_right q x hpt]
        exact hqp'
      rw [mergeOne_push (mergeT p x) hlast hmmw
        (Or.inr (Or.inl (by simp [mergeT, hpc])))]

theorem FlatL_nil : FlatL [] := by
  intro n hn; cases hn

theorem FlatL_mergeOne {l : List PMNode} {x : PMNode}
    (hl : FlatL l) (hx : x.content = none) : FlatL (mergeOne l x) := by
  cases hlast : l.getLast? with
  | none =>
    have : l = [] := List.getLast?_eq_none_iff.mp hlast
    subst this
    rw [mergeOne_nil]
    intro n hn
    simp at hn
    subst hn
    exact hx
  | some p =>
    have hp : p ∈ l := by
      rw [getLast?_decomp hlast]
      simp
    by_cases hm : mergeableT p x = true
    · rw [mergeOne_text x hlast hm]
      intro n hn
      rcases List.mem_append.mp hn with h | h
      · exact hl n (List.dropLast_subset l h)
      · simp at h
        subst h
        simp [mergeT, hl p hp]
    · rw [mergeOne_push x hlast (by simpa using hm) (Or.inl (hl p hp))]
      intro n hn
      rcases List.mem_append.mp hn with h | h
      · exact hl n h
      · simp at h
        subst h
        exact hx

theorem FlatL_mergeInlineArrays {acc l : List PMNode}
    (hacc : FlatL acc) (hl : FlatL l) : FlatL (mergeInlineArrays acc l) := by
  induction l generalizing acc with
  | nil => rw [mergeInlineArrays_nil]; exact hacc
  | cons x xs ih =>
    rw [mergeInlineArrays_cons]
    exact ih (FlatL_mergeOne hacc (hl x (by simp)))
      (fun n hn => hl n (List.mem_cons_of_mem _ hn))

/-- Folding a list extended by mergeOne equals folding then mergeOne, for
flat lists. -/
theorem mia_mergeOne_swap {acc l₂ : List PMNode} {x : PMNode}
    (hfl : FlatL l₂) (hx : x.content = none) :
    mergeInlineArrays acc (mergeOne l₂ x) = mergeOne (mergeInlineArrays acc l₂) x := by
  cases hlast : l₂.getLast? with
  | none =>
    have : l₂ = [] := List.getLast?_eq_none_iff.mp hlast
    subst this
    rw [mergeOne_nil, mergeInlineArrays_singleton, mergeInlineArrays_nil]
  | some p =>
    have hdecomp : l₂ = l₂.dropLast ++ [p] := getLast?_decomp hlast
    have hp : p ∈ l₂ := by rw [hdecomp]; simp
    by_cases hm : mergeableT p x = true
    · rw [mergeOne_text x hlast hm]
      rw [mergeInlineArrays_append, mergeInlineArrays_singleton]
      conv_rhs => rw [hdecomp]
      rw [mergeInlineArrays_append, mergeInlineArrays_singleton]
      exact (mergeOne_mergeOne_text _ (hfl p hp) hm).symm
    · rw [mergeOne_push x hlast (by simpa using hm) (Or.inl (hfl p hp))]
      rw [mergeInlineArrays_append, mergeInlineArrays_singleton]

/-- Fold fusion for flat lists: folding the result of a fold is the same
as continuing the original fold. -/
theorem mia_fusion {l : List PMNode} (hfl : FlatL l) :
    ∀ {l₂ : List PMNode}, FlatL l₂ → ∀ acc,
      mergeInlineArrays acc (mergeInlineArrays l₂ l) =
        mergeInlineArrays (mergeInlineArrays acc l₂) l := by
  induction l with
  | nil =>
    intro l₂ _ acc
    simp [mergeInlineArrays_nil]
  | cons x xs ih =>
    intro l₂ hl₂ acc
    have hx : x.content = none := hfl x (by simp)
    have hxs : FlatL xs := fun n hn => hfl n (List.mem_cons_of_mem _ hn)
    rw [mergeInlineArrays_cons, mergeInlineArrays_cons]
    rw [ih hxs (FlatL_mergeOne hl₂ hx)]
    rw [mia_mergeOne_swap hl₂ hx]

/-- A completed fold is a fixed point: folding it onto an accumulator adds
nothing beyond folding the original list (flat lists). -/
theorem mia_fold_fusion {l : List PMNode} (hfl : FlatL l) (acc : List PMNode) :
    mergeInlineArrays acc (mergeInlineArrays [] l) = mergeInlineArrays acc l := by
  have := mia_fusion hfl FlatL_nil acc
  rwa [mergeInlineArrays_nil] at this

/-- Replacing two adjacent mergeable text nodes by their one-step merge
does not change the fold. -/
theorem mia_fold_cut {xs ys : List PMNode} {a b : PMNode}
    (ha : a.content = none) (hm : mergeableT a b = true) :
    mergeInlineArrays [] (xs ++ a :: b :: ys) =
      mergeInlineArrays [] (xs ++ mergeT a b :: ys) := by
  have h1 : xs ++ a :: b :: ys = (xs ++ [a]) ++ [b] ++ ys := by simp
  have h2 : xs ++ mergeT a b :: ys = (xs ++ [mergeT a b]) ++ ys := by simp
  rw [h1, h2]
  simp only [mergeInlineArrays_append, mergeInlineArrays_singleton]
  rw [mergeOne_mergeOne_text _ ha hm]

/-- Well-formed flat inline node, as in the data model: either a TextRun
(type text, a text string, no attrs, no nested content, marks whose attrs
records are duplicate-free) or an atomic inline node (not a text node, no
nested content). -/
def wfFlatInline (n : PMNode) : Prop :=
  (isTextNode n = true ∧ n.attrs = none ∧ n.content = none ∧ marksND n.marks)
  ∨ (isTextNode n = false ∧ n.content = none)

instance (o : Option (List PMNode)) : Decidable (o = none) :=
  match o with
  | none => isTrue rfl
  | some _ => isFalse (by simp)

instance (n : PMNode) : Decidable (wfFlatInline n) := by
  unfold wfFlatInline marksND attrsND
  infer_instance

theorem wfFlatInline_content_none {n : PMNode} (h : wfFlatInline n) :
    n.content = none := by
  rcases h with h | h
  · exact h.2.2.1
  · exact h.2

theorem FlatL_of_wf {l : List PMNode} (h : ∀ n ∈ l, wfFlatInline n) : FlatL l :=
  fun n hn => wfFlatInline_content_none (h n hn)

theorem wfFlatInline_createTextNode {t : PMNode} (h : wfFlatInline t)
    (htext : isTextNode t = true) (s : List Char) :
    wfFlatInline (createTextNode t s) := by
  left
  refine ⟨by simp [isTextNode, createTextNode, PMNode.type, PMNode.text], rfl, rfl, ?_⟩
  have hm : (createTextNode t s).marks = t.marks := rfl
  rw [hm]
  rcases h with h | h
  · exact h.2.2.2
  · rw [h.1] at htext
    cases htext

/-- splitWalk sends everything to the right once remaining is spent. -/
theorem splitWalk_nonpos {off : Int} (h : off ≤ 0) :
    ∀ l : List PMNode, splitWalk off l = ([], l) := by
  intro l
  induction l with
  | nil => rfl
  | cons n rest ih =>
    simp only [splitWalk, if_pos h, ih]

/-- Shape of a split: either the two halves concatenate back to the input,
or exactly one well-placed text node was cut into two nonempty halves that
keep its marks. -/
theorem splitWalk_rel (off : Int) (c : List PMNode) :
    ((splitWalk off c).1 ++ (splitWalk off c).2 = c) ∨
    (∃ pre t post k, c = pre ++ t :: post ∧ isTextNode t = true ∧
      0 < k ∧ k < (textD t).length ∧
      (splitWalk off c).1 = pre ++ [createTextNode t ((textD t).take k)] ∧
      (splitWalk off c).2 = createTextNode t ((textD t).drop k) :: post) := by
  induction c generalizing off with
  | nil => left; rfl
  | cons inline rest ih =>
    by_cases h0 : off ≤ 0
    · left
      rw [splitWalk_nonpos h0]
      rfl
    · simp only [splitWalk, if_neg h0]
      by_cases htext : isTextNode inline = true
      · simp only [htext, if_pos]
        by_cases hlen : ((textD inline).length : Int) ≤ off
        · simp only [if_pos hlen]
          rcases ih (off - (textD inline).length) with h | ⟨pre, t, post, k, hc, ht, hk0, hk1, h1, h2⟩
          · left
            simp [h]
          · right
            exact ⟨inline :: pre, t, post, k, by simp [hc], ht, hk0, hk1, by simp [h1], h2⟩
        · simp only [if_neg hlen]
          right
          push_neg at h0 hlen
          have hkpos : 0 < off.toNat := by omega
          have hklt : off.toNat < (textD inline).length := by
            omega
          have htake : 0 < ((textD inline).take off.toNat).length := by
            simp [List.length_take]
            omega
          have hdrop : 0 < ((textD inline).drop off.toNat).length := by
            simp [List.length_drop]
            omega
          refine ⟨[], inline, rest, off.toNat, rfl, htext, hkpos, hklt, ?_, ?_⟩
          · simp only [splitWalk_nonpos (le_refl 0)]
            simp only [createTextNode, textD, PMNode.text, Option.getD_some] at htake ⊢
            rw [if_pos htake]
            simp
          · simp only [splitWalk_nonpos (le_refl 0)]
            simp only [createTextNode, textD, PMNode.text, Option.getD_some] at hdrop ⊢
            rw [if_pos hdrop]
            simp
      · simp only [htext]
        simp only [Bool.false_eq_true, if_false]
        have hpos : off > 0 := by omega
        simp only [if_pos hpos]
        rcases ih (off - 1) with h | ⟨pre, t, post, k, hc, ht, hk0, hk1, h1, h2⟩
        · left
          simp [h]
        · right
          exact ⟨inline :: pre, t, post, k, by simp [hc], ht, hk0, hk1, by simp [h1], h2⟩

theorem isTextNode_createTextNode (t : PMNode) (s : List Char) :
    isTextNode (createTextNode t s) = true := by
  simp [isTextNode, createTextNode, PMNode.type, PMNode.text]

theorem content_createTextNode (t : PMNode) (s : List Char) :
    (createTextNode t s).content = none := rfl

theorem wf_text_eta {t : PMNode} (h : wfFlatInline t) (ht : isTextNode t = true) :
    t = PMNode.mk "text" none none (some (textD t)) t.marks := by
  rcases h with h | h
  · obtain ⟨_, ha, hc, _⟩ := h
    cases t with
    | mk tt ta tc tx tm =>
      simp only [isTextNode, PMNode.type, PMNode.text, Bool.and_eq_true,
        beq_iff_eq] at ht
      simp only [PMNode.attrs] at ha
      simp only [PMNode.content] at hc
      rcases Option.isSome_iff_exists.mp ht.2 with ⟨s, hs⟩
      subst hs ha hc
      simp [ht.1, textD, PMNode.text, PMNode.marks]
  · rw [h.1] at ht
    cases ht

theorem wf_text_marksND {t : PMNode} (h : wfFlatInline t)
    (ht : isTextNode t = true) : marksND t.marks := by
  rcases h with h | h
  · exact h.2.2.2
  · rw [h.1] at ht
    cases ht

theorem mergeT_halves {t : PMNode} (k : Nat) :
    mergeT (createTextNode t ((textD t).take k)) (createTextNode t ((textD t).drop k)) =
      createTextNode t (textD t) := by
  simp [mergeT, createTextNode, textD, PMNode.text, PMNode.withText]

theorem mergeableT_halves {t : PMNode} (h : wfFlatInline t)
    (ht : isTextNode t = true) (k : Nat) :
    mergeableT (createTextNode t ((textD t).take k))
      (createTextNode t ((textD t).drop k)) = true := by
  simp only [mergeableT, isTextNode_createTextNode, Bool.true_and]
  have : (createTextNode t ((textD t).take k)).marks = t.marks := rfl
  rw [this]
  have : (createTextNode t ((textD t).drop k)).marks = t.marks := rfl
  rw [this]
  exact marksEqual_refl (wf_text_marksND h ht)

/-- The heart of the split-then-merge identity, at the level of one
block's inline content: re-merging and normalizing the two halves of a
split equals normalizing the original content.  The content must be data
model shaped (wfFlatInline). -/
theorem c1_content (off : Int) (c : List PMNode) (hwf : ∀ n ∈ c, wfFlatInline n) :
    mergeInlineArrays []
      (mergeInlineArrays (mergeInlineArrays [] (splitWalk off c).1)
        (mergeInlineArrays [] (splitWalk off c).2)) =
    mergeInlineArrays [] c := by
  have hflc : FlatL c := FlatL_of_wf hwf
  rcases splitWalk_rel off c with h | ⟨pre, t, post, k, hc, ht, hk0, hk1, h1, h2⟩
  · have hfl1 : FlatL (splitWalk off c).1 := by
      intro n hn
      exact hflc n (h ▸ List.mem_append_left _ hn)
    have hfl2 : FlatL (splitWalk off c).2 := by
      intro n hn
      exact hflc n (h ▸ List.mem_append_right _ hn)
    rw [mia_fold_fusion hfl2]
    rw [← mergeInlineArrays_append]
    rw [h]
    exact mia_fold_fusion hflc []
  · have hwt : wfFlatInline t := hwf t (by rw [hc]; simp)
    have hfl1 : FlatL (splitWalk off c).1 := by
      rw [h1]
      intro n hn
      rcases List.mem_append.mp hn with hmem | hmem
      · exact hflc n (by rw [hc]; exact List.mem_append_left _ hmem)
      · simp at hmem
        subst hmem
        rfl
    have hfl2 : FlatL (splitWalk off c).2 := by
      rw [h2]
      intro n hn
      rcases List.mem_cons.mp hn with hmem | hmem
      · subst hmem
        rfl
      · exact hflc n (by rw [hc]; exact List.mem_append_right _ (List.mem_cons_of_mem _ hmem))
    rw [mia_fold_fusion hfl2]
    rw [← mergeInlineArrays_append]
    have hflsplit : FlatL ((splitWalk off c).1 ++ (splitWalk off c).2) := by
      intro n hn
      rcases List.mem_append.mp hn with hmem | hmem
      · exact hfl1 n hmem
      · exact hfl2 n hmem
    rw [mia_fold_fusion hflsplit]
    rw [h1, h2]
    have hshape : (pre ++ [createTextNode t ((textD t).take k)]) ++
        createTextNode t ((textD t).drop k) :: post =
        pre ++ createTextNode t ((textD t).take k) ::
          createTextNode t ((textD t).drop k) :: post := by
      simp
    rw [hshape]
    rw [mia_fold_cut (content_createTextNode t _) (mergeableT_halves hwt ht k)]
    rw [mergeT_halves]
    have heq : createTextNode t (textD t) = t := by
      conv_rhs => rw [wf_text_eta hwt ht]
      rfl
    rw [heq, hc]

theorem normMap_append (l₁ l₂ : List PMNode) :
    normMap (l₁ ++ l₂) = normMap l₁ ++ normMap l₂ := by
  simp [normMap_eq_map]

theorem normMap_flat {l : List PMNode} (h : FlatL l) : normMap l = l := by
  induction l with
  | nil => exact normMap_nil
  | cons n ns ih =>
    rw [normMap_cons, normalizeBlockNode_of_content_none (h n (by simp)),
      ih (fun m hm => h m (List.mem_cons_of_mem _ hm))]

theorem wfFlatInline_withText_concat {p x : PMNode} (hp : wfFlatInline p)
    (hpt : isTextNode p = true) :
    wfFlatInline (p.withText (some (textD p ++ textD x))) := by
  rcases hp with hp | hp
  · left
    refine ⟨?_, by simp [hp.2.1], by simp [hp.2.2.1], ?_⟩
    · simp only [isTextNode, Bool.and_eq_true, beq_iff_eq] at hpt ⊢
      simp [hpt.1]
    · simpa using hp.2.2.2
  · rw [hp.1] at hpt
    cases hpt

theorem wf_mergeOne {l : List PMNode} {x : PMNode}
    (hl : ∀ n ∈ l, wfFlatInline n) (hx : wfFlatInline x) :
    ∀ n ∈ mergeOne l x, wfFlatInline n := by
  cases hlast : l.getLast? with
  | none =>
    have : l = [] := List.getLast?_eq_none_iff.mp hlast
    subst this
    rw [mergeOne_nil]
    intro n hn
    simp at hn
    subst hn
    exact hx
  | some p =>
    have hp : p ∈ l := by
      rw [getLast?_decomp hlast]
      simp
    by_cases hm : mergeableT p x = true
    · rw [mergeOne_text x hlast hm]
      intro n hn
      rcases List.mem_append.mp hn with h | h
      · exact hl n (List.dropLast_subset l h)
      · simp at h
        subst h
        have hpt : isTextNode p = true := by
          simp only [mergeableT, Bool.and_eq_true] at hm
          exact hm.1.1
        exact wfFlatInline_withText_concat (hl p hp) hpt
    · rw [mergeOne_push x hlast (by simpa using hm)
        (Or.inl (wfFlatInline_content_none (hl p hp)))]
      intro n hn
      rcases List.mem_append.mp hn with h | h
      · exact hl n h
      · simp at h
        subst h
        exact hx

theorem wf_mergeInlineArrays {acc l : List PMNode}
    (hacc : ∀ n ∈ acc, wfFlatInline n) (hl : ∀ n ∈ l, wfFlatInline n) :
    ∀ n ∈ mergeInlineArrays acc l, wfFlatInline n := by
  induction l generalizing acc with
  | nil => rw [mergeInlineArrays_nil]; exact hacc
  | cons x xs ih =>
    rw [mergeInlineArrays_cons]
    exact ih (wf_mergeOne hacc (hl x (by simp)))
      (fun n hn => hl n (List.mem_cons_of_mem _ hn))

/-- Well-formed block of the data model: a block node has no text and no
marks fields, a duplicate-free attrs record, and an inline content array
of well-formed flat inline nodes. -/
def wfFlatBlock (b : PMNode) : Prop :=
  b.text = none ∧ b.marks = none ∧ attrsND b.attrs ∧ b.content.isSome = true ∧
  ∀ n ∈ b.content.getD [], wfFlatInline n

instance (b : PMNode) : Decidable (wfFlatBlock b) := by
  unfold wfFlatBlock attrsND
  infer_instance

/-- Well-formed document of the data model: every block well-formed. -/
def wfFlatDoc (bs : List PMNode) : Prop := ∀ b ∈ bs, wfFlatBlock b

instance (bs : List PMNode) : Decidable (wfFlatDoc bs) := by
  unfold wfFlatDoc
  infer_instance

@[simp] theorem withContent_withContent (n : PMNode) (c d : Option (List PMNode)) :
    (n.withContent c).withContent d = n.withContent d := by
  cases n; rfl

theorem normalizeBlockNode_wfBlock {b : PMNode} {c : List PMNode}
    (hc : b.content = some c) :
    normalizeBlockNode b = b.withContent (some (normMap (mergeInlineArrays [] c))) :=
  normalizeBlockNode_of_content_some hc

theorem normalizeBlockNode_flat {b : PMNode} {c : List PMNode}
    (hc : b.content = some c) (hfl : FlatL c) :
    normalizeBlockNode b = b.withContent (some (mergeInlineArrays [] c)) := by
  rw [normalizeBlockNode_of_content_some hc,
    normMap_flat (FlatL_mergeInlineArrays FlatL_nil hfl)]

theorem wfFlatBlock_content {b : PMNode} (hb : wfFlatBlock b) :
    ∃ c, b.content = some c ∧ (∀ n ∈ c, wfFlatInline n) := by
  rcases Option.isSome_iff_exists.mp hb.2.2.2.1 with ⟨c, hc⟩
  refine ⟨c, hc, ?_⟩
  have := hb.2.2.2.2
  rwa [hc] at this

theorem wfFlatBlock_normalize {b : PMNode} (hb : wfFlatBlock b) :
    wfFlatBlock (normalizeBlockNode b) := by
  rcases wfFlatBlock_content hb with ⟨c, hc, hcwf⟩
  rw [normalizeBlockNode_flat hc (FlatL_of_wf hcwf)]
  refine ⟨by simp [hb.1], by simp [hb.2.1], by
    simpa [attrsND] using hb.2.2.1, by simp, ?_⟩
  simp only [content_withContent, Option.getD_some]
  exact wf_mergeInlineArrays (fun n hn => by cases hn) hcwf

theorem normalizeBlockNode_idem {b : PMNode} (hb : wfFlatBlock b) :
    normalizeBlockNode (normalizeBlockNode b) = normalizeBlockNode b := by
  rcases wfFlatBlock_content hb with ⟨c, hc, hcwf⟩
  have hfl : FlatL c := FlatL_of_wf hcwf
  rw [normalizeBlockNode_flat hc hfl]
  have hfl2 : FlatL (mergeInlineArrays [] c) := FlatL_mergeInlineArrays FlatL_nil hfl
  rw [normalizeBlockNode_flat (by simp) hfl2]
  rw [withContent_withContent]
  rw [mia_fold_fusion hfl]

theorem normMap_idem {bs : List PMNode} (h : wfFlatDoc bs) :
    normMap (normMap bs) = normMap bs := by
  induction bs with
  | nil => simp [normMap_nil]
  | cons b rest ih =>
    rw [normMap_cons, normMap_cons]
    rw [normalizeBlockNode_idem (h b (by simp))]
    rw [ih (fun x hx => h x (List.mem_cons_of_mem _ hx))]

theorem splitBlockAtOffset_some {b : PMNode} {c : List PMNode}
    (hc : b.content = some c) (off : Int) :
    splitBlockAtOffset b off =
      (PMNode.mk b.type b.attrs (some (splitWalk off c).1) none none,
       PMNode.mk b.type b.attrs (some (splitWalk off c).2) none none) := by
  unfold splitBlockAtOffset
  rw [hc]
  cases c with
  | nil => rfl
  | cons n ns => rfl

theorem splitWalk_wf (off : Int) {c : List PMNode} (h : ∀ n ∈ c, wfFlatInline n) :
    (∀ n ∈ (splitWalk off c).1, wfFlatInline n) ∧
    (∀ n ∈ (splitWalk off c).2, wfFlatInline n) := by
  rcases splitWalk_rel off c with hr | ⟨pre, t, post, k, hcr, ht, _, _, h1, h2⟩
  · constructor <;> intro n hn
    · exact h n (hr ▸ List.mem_append_left _ hn)
    · exact h n (hr ▸ List.mem_append_right _ hn)
  · have hwt : wfFlatInline t := h t (by rw [hcr]; simp)
    constructor <;> intro n hn
    · rw [h1] at hn
      rcases List.mem_append.mp hn with hm | hm
      · exact h n (by rw [hcr]; exact List.mem_append_left _ hm)
      · simp at hm
        subst hm
        exact wfFlatInline_createTextNode hwt ht _
    · rw [h2] at hn
      rcases List.mem_cons.mp hn with hm | hm
      · subst hm
        exact wfFlatInline_createTextNode hwt ht _
      · exact h n (by rw [hcr]; exact List.mem_append_right _ (List.mem_cons_of_mem _ hm))

theorem normalizeInlineTextNodes_some (X : List PMNode) :
    normalizeInlineTextNodes ⟨some X⟩ = ⟨some (normMap X)⟩ := rfl

/-- The boundary-merge branch of mergeDocuments, in closed form. -/
theorem mergeDocuments_merge_branch {A B : List PMNode} {lastA firstB : PMNode}
    (hA : A.getLast? = some lastA) (hB : B.head? = some firstB)
    (hcond : (lastA.type == firstB.type && attrsEqual lastA.attrs firstB.attrs) = true) :
    mergeDocuments (some ⟨some A⟩) (some ⟨some B⟩) =
      normalizeInlineTextNodes ⟨some (A.dropLast ++
        (lastA.withContent (some (mergeInlineArrays (lastA.content.getD [])
          (firstB.content.getD [])))) :: B.tail)⟩ := by
  have hAne : A ≠ [] := by
    intro h
    rw [h] at hA
    cases hA
  have hBne : B ≠ [] := by
    intro h
    rw [h] at hB
    cases hB
  unfold mergeDocuments
  simp only [Option.getD_some]
  rw [if_neg (by simpa [List.isEmpty_iff] using hAne)]
  rw [if_neg (by simpa [List.isEmpty_iff] using hBne)]
  rw [List.getLastD_eq_getLast?, hA, List.headD_eq_head?, hB]
  simp only [Option.getD_some]
  rw [if_pos hcond]

/-- The plain-concatenation branch of mergeDocuments, in closed form. -/
theorem mergeDocuments_concat_branch {A B : List PMNode} {lastA firstB : PMNode}
    (hA : A.getLast? = some lastA) (hB : B.head? = some firstB)
    (hcond : (lastA.type == firstB.type && attrsEqual lastA.attrs firstB.attrs) = false) :
    mergeDocuments (some ⟨some A⟩) (some ⟨some B⟩) =
      normalizeInlineTextNodes ⟨some (A ++ B)⟩ := by
  have hAne : A ≠ [] := by
    intro h
    rw [h] at hA
    cases hA
  have hBne : B ≠ [] := by
    intro h
    rw [h] at hB
    cases hB
  unfold mergeDocuments
  simp only [Option.getD_some]
  rw [if_neg (by simpa [List.isEmpty_iff] using hAne)]
  rw [if_neg (by simpa [List.isEmpty_iff] using hBne)]
  rw [List.getLastD_eq_getLast?, hA, List.headD_eq_head?, hB]
  simp only [Option.getD_some]
  rw [if_neg (by simp [hcond])]

@[simp] theorem type_mk (t : String) (a : Option Attrs) (c : Option (List PMNode))
    (x : Option (List Char)) (m : Option (List PMMark)) :
    (PMNode.mk t a c x m).type = t := rfl

@[simp] theorem attrs_mk (t : String) (a : Option Attrs) (c : Option (List PMNode))
    (x : Option (List Char)) (m : Option (List PMMark)) :
    (PMNode.mk t a c x m).attrs = a := rfl

@[simp] theorem content_mk (t : String) (a : Option Attrs) (c : Option (List PMNode))
    (x : Option (List Char)) (m : Option (List PMMark)) :
    (PMNode.mk t a c x m).content = c := rfl

@[simp] theorem text_mk (t : String) (a : Option Attrs) (c : Option (List PMNode))
    (x : Option (List Char)) (m : Option (List PMMark)) :
    (PMNode.mk t a c x m).text = x := rfl

@[simp] theorem marks_mk (t : String) (a : Option Attrs) (c : Option (List PMNode))
    (x : Option (List Char)) (m : Option (List PMMark)) :
    (PMNode.mk t a c x m).marks = m := rfl

@[simp] theorem withContent_mk (t : String) (a : Option Attrs)
    (c y : Option (List PMNode)) (x : Option (List Char))
    (m : Option (List PMMark)) :
    (PMNode.mk t a c x m).withContent y = PMNode.mk t a y x m := rfl

theorem splitBlockAtOffset_some_fst {b : PMNode} {c : List PMNode}
    (hc : b.content = some c) (off : Int) :
    (splitBlockAtOffset b off).1 =
      PMNode.mk b.type b.attrs (some (splitWalk off c).1) none none := by
  rw [splitBlockAtOffset_some hc off]

theorem splitBlockAtOffset_some_snd {b : PMNode} {c : List PMNode}
    (hc : b.content = some c) (off : Int) :
    (splitBlockAtOffset b off).2 =
      PMNode.mk b.type b.attrs (some (splitWalk off c).2) none none := by
  rw [splitBlockAtOffset_some hc off]

theorem wf_block_withContent {b : PMNode} (hb : wfFlatBlock b)
    (Y : Option (List PMNode)) :
    b.withContent Y = PMNode.mk b.type b.attrs Y none none := by
  obtain ⟨ht, hm, _, _, _⟩ := hb
  cases b with
  | mk t a c x m =>
    simp only [PMNode.text] at ht
    simp only [PMNode.marks] at hm
    subst ht hm
    rfl

theorem wfFlatDoc_take (bs : List PMNode) (n : Nat) (h : wfFlatDoc bs) :
    wfFlatDoc (bs.take n) :=
  fun b hb => h b (List.mem_of_mem_take hb)

theorem wfFlatDoc_drop (bs : List PMNode) (n : Nat) (h : wfFlatDoc bs) :
    wfFlatDoc (bs.drop n) :=
  fun b hb => h b (List.mem_of_mem_drop hb)

/-- Split-then-merge identity at fixed block coordinates: merging the two
normalized documents produced from the pieces of a block split (any block
index in range, any offset) gives the normalized original document. -/
theorem c1_core (bs : List PMNode) (hwf : wfFlatDoc bs) (bi : Nat)
    (hbi : bi < bs.length) (off : Int) :
    mergeDocuments
      (some (normalizeInlineTextNodes
        ⟨some (bs.take bi ++ [(splitBlockAtOffset (bs.getD bi default) off).1])⟩))
      (some (normalizeInlineTextNodes
        ⟨some ((splitBlockAtOffset (bs.getD bi default) off).2 :: bs.drop (bi + 1))⟩))
      = normalizeInlineTextNodes ⟨some bs⟩ := by
  have hbmem : bs.getD bi default ∈ bs := by
    rw [List.getD_eq_getElem _ _ hbi]
    exact List.getElem_mem _
  have hb : wfFlatBlock (bs.getD bi default) := hwf _ hbmem
  rcases wfFlatBlock_content hb with ⟨c, hc, hcwf⟩
  have hflc : FlatL c := FlatL_of_wf hcwf
  have hwfsplit := splitWalk_wf off hcwf
  have hfl1 : FlatL (splitWalk off c).1 := FlatL_of_wf hwfsplit.1
  have hfl2 : FlatL (splitWalk off c).2 := FlatL_of_wf hwfsplit.2
  rw [splitBlockAtOffset_some_fst hc off, splitBlockAtOffset_some_snd hc off]
  rw [normalizeInlineTextNodes_some, normalizeInlineTextNodes_some]
  rw [normMap_append, normMap_cons, normMap_nil, normMap_cons]
  have hnlb : normalizeBlockNode
      (PMNode.mk (bs.getD bi default).type (bs.getD bi default).attrs
        (some (splitWalk off c).1) none none) =
      PMNode.mk (bs.getD bi default).type (bs.getD bi default).attrs
        (some (mergeInlineArrays [] (splitWalk off c).1)) none none := by
    rw [normalizeBlockNode_flat (by rfl) hfl1]
    rfl
  have hnrb : normalizeBlockNode
      (PMNode.mk (bs.getD bi default).type (bs.getD bi default).attrs
        (some (splitWalk off c).2) none none) =
      PMNode.mk (bs.getD bi default).type (bs.getD bi default).attrs
        (some (mergeInlineArrays [] (splitWalk off c).2)) none none := by
    rw [normalizeBlockNode_flat (by rfl) hfl2]
    rfl
  rw [hnlb, hnrb]
  rw [mergeDocuments_merge_branch (List.getLast?_concat _) List.head?_cons
    (by
      simp only [PMNode.type, PMNode.attrs, beq_self_eq_true, Bool.true_and]
      exact attrsEqual_refl hb.2.2.1)]
  rw [List.dropLast_concat, List.tail_cons]
  simp only [content_mk, Option.getD_some, withContent_mk]
  have hbs : bs = bs.take bi ++ bs.getD bi default :: bs.drop (bi + 1) := by
    conv_lhs => rw [← List.take_append_drop bi bs]
    rw [List.drop_eq_getElem_cons hbi, List.getD_eq_getElem _ _ hbi]
  conv_rhs => rw [hbs]
  rw [normalizeInlineTextNodes_some, normalizeInlineTextNodes_some]
  rw [normMap_append, normMap_cons]
  rw [normMap_append, normMap_cons]
  rw [normMap_idem (wfFlatDoc_take bs bi hwf)]
  rw [normMap_idem (wfFlatDoc_drop bs (bi + 1) hwf)]
  have hmid : normalizeBlockNode
      (PMNode.mk (bs.getD bi default).type (bs.getD bi default).attrs
        (some (mergeInlineArrays (mergeInlineArrays [] (splitWalk off c).1)
          (mergeInlineArrays [] (splitWalk off c).2))) none none) =
      normalizeBlockNode (bs.getD bi default) := by
    rw [normalizeBlockNode_of_content_some (by rfl)]
    rw [normalizeBlockNode_of_content_some hc]
    rw [wf_block_withContent hb]
    simp only [withContent_mk]
    rw [c1_content off c hcwf]
  rw [hmid]

theorem splitDocumentAt_abs (d : Option PMDoc) (p : Int) :
    splitDocumentAt d (.abs p) =
      splitDocumentAt d
        (.coord ((absolutePosToBlockOffset (docBlocks d) p).1 : Int)
          ((absolutePosToBlockOffset (docBlocks d) p).2)) := rfl

theorem splitDocumentAt_coord (d : Option PMDoc) (t1 t2 : Int)
    (hne : docBlocks d ≠ []) :
    splitDocumentAt d (.coord t1 t2) =
      (normalizeInlineTextNodes ⟨some ((docBlocks d).take
          (max 0 (min t1 (max 0 (((docBlocks d).length : Int) - 1)))).toNat ++
          [(splitBlockAtOffset ((docBlocks d).getD
            (max 0 (min t1 (max 0 (((docBlocks d).length : Int) - 1)))).toNat default)
            (max 0 t2)).1])⟩,
       normalizeInlineTextNodes ⟨some ((splitBlockAtOffset ((docBlocks d).getD
            (max 0 (min t1 (max 0 (((docBlocks d).length : Int) - 1)))).toNat default)
            (max 0 t2)).2 :: (docBlocks d).drop
            ((max 0 (min t1 (max 0 (((docBlocks d).length : Int) - 1)))).toNat + 1))⟩) := by
  unfold splitDocumentAt
  rw [if_neg (by simpa [List.isEmpty_iff] using hne)]

theorem splitDocumentAt_empty (d : Option PMDoc) (pos : SplitPos)
    (he : docBlocks d = []) :
    splitDocumentAt d pos = (⟨some []⟩, ⟨some []⟩) := by
  unfold splitDocumentAt
  rw [if_pos (by simpa [List.isEmpty_iff] using he)]

/-- C1: for every data-model document D (each block has an inline content
array of TextRuns and AtomicNodes; blocks and marks carry duplicate-free
attrs records) and every position p, absolute or as a blockIndex offset
pair, merging the two halves returned by splitting D at p gives a document
structurally equal to the normalized form of D (same block sequence, same
inline content after collapsing adjacent TextRuns with equal mark sets). -/
theorem c1_split_then_merge_identity (bs : List PMNode) (hwf : wfFlatDoc bs)
    (pos : SplitPos) :
    mergeDocuments (some (splitDocumentAt (some ⟨some bs⟩) pos).1)
      (some (splitDocumentAt (some ⟨some bs⟩) pos).2) =
      normalizeInlineTextNodes ⟨some bs⟩ := by
  have hdb : docBlocks (some ⟨some bs⟩) = bs := rfl
  by_cases hne : bs = []
  · subst hne
    rw [splitDocumentAt_empty _ _ (by simp [docBlocks])]
    rfl
  · suffices h : ∀ t1 t2 : Int,
        mergeDocuments (some (splitDocumentAt (some ⟨some bs⟩) (.coord t1 t2)).1)
          (some (splitDocumentAt (some ⟨some bs⟩) (.coord t1 t2)).2) =
          normalizeInlineTextNodes ⟨some bs⟩ by
      cases pos with
      | abs p => rw [splitDocumentAt_abs]; exact h _ _
      | coord t1 t2 => exact h t1 t2
    intro t1 t2
    rw [splitDocumentAt_coord _ _ _ (by rw [hdb]; exact hne)]
    rw [hdb]
    have hlen : 1 ≤ (bs.length : Int) := by
      have h0 : bs.length ≠ 0 := fun h0 => hne (List.length_eq_zero.mp h0)
      omega
    have hBle : max 0 (min t1 (max 0 ((bs.length : Int) - 1))) ≤ (bs.length : Int) - 1 := by
      have h1 : max 0 ((bs.length : Int) - 1) = (bs.length : Int) - 1 :=
        max_eq_right (by omega)
      rw [h1]
      exact max_le (by omega) (min_le_right _ _)
    have hbi : (max 0 (min t1 (max 0 ((bs.length : Int) - 1)))).toNat < bs.length := by
      omega
    exact c1_core bs hwf _ hbi (max 0 t2)

/-- AtomicNode of the data model: a non-text inline reference node that
carries no text and no nested content, counting 1 in position math. -/
def isAtomicNode (n : PMNode) : Bool :=
  !(n.type == "text") && n.text.isNone && n.content.isNone

theorem isAtomicNode_false_of_text {n : PMNode} (h : isTextNode n = true) :
    isAtomicNode n = false := by
  simp only [isTextNode, Bool.and_eq_true, beq_iff_eq] at h
  simp [isAtomicNode, h.1]

theorem isAtomicNode_false_of_content {n : PMNode} {c : List PMNode}
    (h : n.content = some c) : isAtomicNode n = false := by
  simp [isAtomicNode, h]

theorem isAtomicNode_createTextNode (t : PMNode) (s : List Char) :
    isAtomicNode (createTextNode t s) = false :=
  isAtomicNode_false_of_text (isTextNode_createTextNode t s)

theorem splitWalk_atoms (off : Int) (c : List PMNode) :
    ((splitWalk off c).1.filter isAtomicNode) ++
      ((splitWalk off c).2.filter isAtomicNode) =
    c.filter isAtomicNode := by
  rcases splitWalk_rel off c with h | ⟨pre, t, post, k, hc, ht, _, _, h1, h2⟩
  · rw [← List.filter_append, h]
  · rw [h1, h2, hc]
    simp only [List.filter_append, List.filter_cons]
    rw [isAtomicNode_createTextNode, isAtomicNode_createTextNode,
      isAtomicNode_false_of_text ht]
    simp

/-- C2: splitting a block at any offset routes each AtomicNode whole to
exactly one side: the atomic nodes of the left half followed by those of
the right half are exactly the atomic nodes of the input block, each
appearing once, none divided, duplicated or dropped. -/
theorem c2_atomic_indivisible_under_split (block : PMNode) (off : Int) :
    (((splitBlockAtOffset block off).1.content.getD []).filter isAtomicNode) ++
      (((splitBlockAtOffset block off).2.content.getD []).filter isAtomicNode) =
    (block.content.getD []).filter isAtomicNode := by
  cases hc : block.content with
  | none =>
    unfold splitBlockAtOffset
    rw [hc]
    simp
  | some c =>
    rw [splitBlockAtOffset_some_fst hc off, splitBlockAtOffset_some_snd hc off]
    simp only [content_mk, Option.getD_some]
    exact splitWalk_atoms off c

theorem mergeOne_atoms (acc : List PMNode) (n : PMNode) :
    (mergeOne acc n).filter isAtomicNode =
      acc.filter isAtomicNode ++ [n].filter isAtomicNode := by
  cases hlast : acc.getLast? with
  | none =>
    have : acc = [] := List.getLast?_eq_none_iff.mp hlast
    subst this
    rw [mergeOne_nil]
    simp
  | some p =>
    have hdec : acc = acc.dropLast ++ [p] := getLast?_decomp hlast
    by_cases hm : mergeableT p n = true
    · have hpt : isTextNode p = true := by
        simp only [mergeableT, Bool.and_eq_true] at hm
        exact hm.1.1
      have hnt : isTextNode n = true := by
        simp only [mergeableT, Bool.and_eq_true] at hm
        exact hm.1.2
      rw [mergeOne_text n hlast hm]
      conv_rhs => rw [hdec]
      simp only [List.filter_append, List.filter_cons, List.filter_nil]
      rw [isAtomicNode_false_of_text hpt, isAtomicNode_false_of_text hnt]
      have : isAtomicNode (mergeT p n) = false := by
        apply isAtomicNode_false_of_text
        exact isTextNode_mergeT n hpt
      rw [this]
      simp
    · cases hpc : p.content with
      | some pc =>
        cases hnc : n.content with
        | some nc =>
          by_cases hcnd : mergeableC p n = true
          · rw [mergeOne_container n hlast (by simpa using hm) hpc hnc hcnd]
            conv_rhs => rw [hdec]
            simp only [List.filter_append, List.filter_cons, List.filter_nil]
            rw [isAtomicNode_false_of_content hpc, isAtomicNode_false_of_content hnc]
            have : isAtomicNode (p.withContent
                (some (mergeInlineArrays pc nc))) = false :=
              @isAtomicNode_false_of_content _ (mergeInlineArrays pc nc) (by simp)
            rw [this]
            simp
          · rw [mergeOne_push n hlast (by simpa using hm)
              (Or.inr (Or.inr (by simpa using hcnd)))]
            simp [List.filter_append]
        | none =>
          rw [mergeOne_push n hlast (by simpa using hm) (Or.inr (Or.inl hnc))]
          simp [List.filter_append]
      | none =>
        rw [mergeOne_push n hlast (by simpa using hm) (Or.inl hpc)]
        simp [List.filter_append]

theorem mergeInlineArrays_atoms (acc l : List PMNode) :
    (mergeInlineArrays acc l).filter isAtomicNode =
      acc.filter isAtomicNode ++ l.filter isAtomicNode := by
  induction l generalizing acc with
  | nil => simp [mergeInlineArrays_nil]
  | cons x xs ih =>
    rw [mergeInlineArrays_cons, ih, mergeOne_atoms]
    simp only [List.filter_cons, List.filter_nil, List.append_assoc,
      List.append_cancel_left_eq]
    split <;> simp

theorem normMap_atoms (l : List PMNode) :
    (normMap l).filter isAtomicNode = l.filter isAtomicNode := by
  induction l with
  | nil => simp [normMap_nil]
  | cons n ns ih =>
    rw [normMap_cons]
    cases hc : n.content with
    | none =>
      rw [normalizeBlockNode_of_content_none hc]
      simp only [List.filter_cons, ih]
    | some c =>
      rw [normalizeBlockNode_of_content_some hc]
      simp only [List.filter_cons]
      rw [isAtomicNode_false_of_content hc,
        @isAtomicNode_false_of_content _ (normMap (mergeInlineArrays [] c)) (by simp)]
      exact ih

/-- C3: neither the inline-array merge nor normalization ever merges two
AtomicNodes into one, whatever their kinds and attributes: the atomic
nodes of a merged array are exactly those of the left input followed by
those of the right input, each kept as its own node, and normalizing a
block keeps its atomic nodes unchanged. -/
theorem c3_atomic_nodes_never_merge :
    (∀ l r : List PMNode, (mergeInlineArrays l r).filter isAtomicNode =
      l.filter isAtomicNode ++ r.filter isAtomicNode) ∧
    (∀ b : PMNode, ((normalizeBlockNode b).content.getD []).filter isAtomicNode =
      (b.content.getD []).filter isAtomicNode) := by
  refine ⟨mergeInlineArrays_atoms, ?_⟩
  intro b
  cases hc : b.content with
  | none =>
    rw [normalizeBlockNode_of_content_none hc, hc]
  | some c =>
    rw [normalizeBlockNode_of_content_some hc]
    simp only [content_withContent, Option.getD_some]
    rw [normMap_atoms, mergeInlineArrays_atoms]
    simp

/-- C5: splitting a block holding one TextRun with any marks at an
interior offset yields two TextRuns that both carry exactly the original
marks, and their concatenated texts equal the original text. -/
theorem c5_mark_preservation_under_split (btype : String) (battrs : Option Attrs)
    (om : Option (List PMMark)) (t : List Char) (k : Int)
    (h1 : 0 < k) (h2 : k < (t.length : Int)) :
    splitBlockAtOffset (PMNode.mk btype battrs
        (some [PMNode.mk "text" none none (some t) om]) none none) k =
      (PMNode.mk btype battrs
        (some [PMNode.mk "text" none none (some (t.take k.toNat)) om]) none none,
       PMNode.mk btype battrs
        (some [PMNode.mk "text" none none (some (t.drop k.toNat)) om]) none none) ∧
    t.take k.toNat ++ t.drop k.toNat = t := by
  have hk0 : 0 < k.toNat := by omega
  have hklen : k.toNat < t.length := by omega
  have hcontent : (PMNode.mk btype battrs
      (some [PMNode.mk "text" none none (some t) om]) none none).content =
      some [PMNode.mk "text" none none (some t) om] := rfl
  constructor
  · rw [splitBlockAtOffset_some hcontent k]
    have hw : splitWalk k [PMNode.mk "text" none none (some t) om] =
        ([PMNode.mk "text" none none (some (t.take k.toNat)) om],
         [PMNode.mk "text" none none (some (t.drop k.toNat)) om]) := by
      unfold splitWalk
      rw [if_neg (by omega)]
      rw [if_pos (by simp [isTextNode])]
      rw [if_neg (by simp only [textD, text_mk, Option.getD_some]; omega)]
      simp only [textD, text_mk, Option.getD_some, createTextNode, marks_mk]
      rw [if_pos (by simp [List.length_take]; omega)]
      rw [if_pos (by simp [List.length_drop]; omega)]
      rfl
    rw [hw]
    simp
  · exact List.take_append_drop _ t

/-- Witness for c5_mark_preservation_under_split: a bold six-character run
split at offset 3. -/
theorem c5_mark_preservation_under_split_witness :
    (0 : Int) < 3 ∧ (3 : Int) < ((['f','o','o','b','a','r'] : List Char).length : Int) ∧
    (splitBlockAtOffset (PMNode.mk "paragraph" none
        (some [PMNode.mk "text" none none (some ['f','o','o','b','a','r'])
          (some [⟨"bold", none⟩])]) none none) 3 =
      (PMNode.mk "paragraph" none
        (some [PMNode.mk "text" none none
          (some (['f','o','o','b','a','r'].take (3 : Int).toNat))
          (some [⟨"bold", none⟩])]) none none,
       PMNode.mk "paragraph" none
        (some [PMNode.mk "text" none none
          (some (['f','o','o','b','a','r'].drop (3 : Int).toNat))
          (some [⟨"bold", none⟩])]) none none) ∧
    ['f','o','o','b','a','r'].take (3 : Int).toNat ++
      ['f','o','o','b','a','r'].drop (3 : Int).toNat = ['f','o','o','b','a','r']) :=
  ⟨by norm_num, by norm_num,
    c5_mark_preservation_under_split "paragraph" none (some [⟨"bold", none⟩])
      ['f','o','o','b','a','r'] 3 (by norm_num) (by norm_num)⟩

theorem merge_two_text_runs (n1 n2 : PMNode)
    (h1 : isTextNode n1 = true) (h2 : isTextNode n2 = true) :
    mergeInlineArrays [n1] [n2] =
      if marksEqual n1.marks n2.marks then [mergeT n1 n2] else [n1, n2] := by
  rw [mergeInlineArrays_singleton]
  have hlast : [n1].getLast? = some n1 := rfl
  by_cases hm : marksEqual n1.marks n2.marks = true
  · rw [if_pos hm]
    rw [mergeOne_text n2 hlast (by simp [mergeableT, h1, h2, hm])]
    rfl
  · rw [if_neg hm]
    rw [mergeOne_push n2 hlast
      (by simp [mergeableT, h1, h2]; simpa using hm)
      (Or.inr (Or.inr (by simp [mergeableC, h1])))]
    rfl

/-- C6 counterexample: two adjacent TextRuns carrying the same mark set
listed in different orders (bold italic against italic bold) are NOT
collapsed by the inline merge: the output keeps two separate runs, so
mark-set equality is not order-independent in the code. -/
theorem c6_order_counterexample :
    (∀ m : PMMark, m ∈ [(⟨"bold", none⟩ : PMMark), ⟨"italic", none⟩] ↔
      m ∈ [(⟨"italic", none⟩ : PMMark), ⟨"bold", none⟩]) ∧
    mergeInlineArrays
      [PMNode.mk "text" none none (some ['x'])
        (some [⟨"bold", none⟩, ⟨"italic", none⟩])]
      [PMNode.mk "text" none none (some ['y'])
        (some [⟨"italic", none⟩, ⟨"bold", none⟩])] =
      [PMNode.mk "text" none none (some ['x'])
        (some [⟨"bold", none⟩, ⟨"italic", none⟩]),
       PMNode.mk "text" none none (some ['y'])
        (some [⟨"italic", none⟩, ⟨"bold", none⟩])] := by
  constructor
  · intro m
    constructor <;> (intro h; simp at h; rcases h with h | h <;> simp [h])
  · rw [merge_two_text_runs _ _ (by simp [isTextNode]) (by simp [isTextNode])]
    rw [if_neg (by decide)]

/-- C6 amended: two adjacent TextRuns are collapsed into one run if and
only if marksEqual holds of their mark lists, which compares the lists
index by index (same length, same type and equal attrs at each position);
equal mark sets in a different order are not collapsed. -/
theorem c6_mergeable_iff_marksEqual (n1 n2 : PMNode)
    (h1 : isTextNode n1 = true) (h2 : isTextNode n2 = true) :
    mergeInlineArrays [n1] [n2] =
      if marksEqual n1.marks n2.marks then
        [n1.withText (some (textD n1 ++ textD n2))]
      else [n1, n2] :=
  merge_two_text_runs n1 n2 h1 h2

/-- Witness for c6_mergeable_iff_marksEqual: two plain runs with equal
marks merge into one. -/
theorem c6_mergeable_iff_marksEqual_witness :
    isTextNode (PMNode.mk "text" none none (some ['a']) none) = true ∧
    mergeInlineArrays [PMNode.mk "text" none none (some ['a']) none]
        [PMNode.mk "text" none none (some ['b']) none] =
      if marksEqual (PMNode.mk "text" none none (some ['a']) none).marks
          (PMNode.mk "text" none none (some ['b']) none).marks then
        [(PMNode.mk "text" none none (some ['a']) none).withText
          (some (textD (PMNode.mk "text" none none (some ['a']) none) ++
            textD (PMNode.mk "text" none none (some ['b']) none)))]
      else [PMNode.mk "text" none none (some ['a']) none,
            PMNode.mk "text" none none (some ['b']) none] :=
  ⟨by simp [isTextNode],
    c6_mergeable_iff_marksEqual _ _ (by simp [isTextNode]) (by simp [isTextNode])⟩

/-- Witness for c1_split_then_merge_identity: a two-block document with
bold runs and a project chip, split at absolute position 2. -/
theorem c1_split_then_merge_identity_witness :
    wfFlatDoc [PMNode.mk "paragraph" none
        (some [PMNode.mk "text" none none (some ['a','b'])
            (some [⟨"bold", none⟩]),
          PMNode.mk "projectChip" (some [("projectId", AttrV.str "42")]) none none none,
          PMNode.mk "text" none none (some ['c','d']) none]) none none,
      PMNode.mk "paragraph" none
        (some [PMNode.mk "text" none none (some ['x']) none]) none none] ∧
    mergeDocuments
      (some (splitDocumentAt (some ⟨some [PMNode.mk "paragraph" none
        (some [PMNode.mk "text" none none (some ['a','b'])
            (some [⟨"bold", none⟩]),
          PMNode.mk "projectChip" (some [("projectId", AttrV.str "42")]) none none none,
          PMNode.mk "text" none none (some ['c','d']) none]) none none,
      PMNode.mk "paragraph" none
        (some [PMNode.mk "text" none none (some ['x']) none]) none none]⟩) (.abs 2)).1)
      (some (splitDocumentAt (some ⟨some [PMNode.mk "paragraph" none
        (some [PMNode.mk "text" none none (some ['a','b'])
            (some [⟨"bold", none⟩]),
          PMNode.mk "projectChip" (some [("projectId", AttrV.str "42")]) none none none,
          PMNode.mk "text" none none (some ['c','d']) none]) none none,
      PMNode.mk "paragraph" none
        (some [PMNode.mk "text" none none (some ['x']) none]) none none]⟩) (.abs 2)).2) =
    normalizeInlineTextNodes ⟨some [PMNode.mk "paragraph" none
        (some [PMNode.mk "text" none none (some ['a','b'])
            (some [⟨"bold", none⟩]),
          PMNode.mk "projectChip" (some [("projectId", AttrV.str "42")]) none none none,
          PMNode.mk "text" none none (some ['c','d']) none]) none none,
      PMNode.mk "paragraph" none
        (some [PMNode.mk "text" none none (some ['x']) none]) none none]⟩ :=
  ⟨by decide, c1_split_then_merge_identity _ (by decide) (.abs 2)⟩

theorem normalize_single_plain_block (bt : String) (t : List Char) :
    normalizeInlineTextNodes ⟨some [PMNode.mk bt none
      (some [PMNode.mk "text" none none (some t) none]) none none]⟩ =
    ⟨some [PMNode.mk bt none
      (some [PMNode.mk "text" none none (some t) none]) none none]⟩ := by
  rw [normalizeInlineTextNodes_some, normMap_cons, normMap_nil]
  have hcc : (PMNode.mk bt none
      (some [PMNode.mk "text" none none (some t) none]) none none).content =
      some [PMNode.mk "text" none none (some t) none] := rfl
  rw [normalizeBlockNode_of_content_some hcc]
  rw [mergeInlineArrays_cons, mergeOne_nil, mergeInlineArrays_nil]
  rw [normMap_cons, normMap_nil,
    normalizeBlockNode_of_content_none
      (show (PMNode.mk "text" none none (some t) none).content = none from rfl)]
  rfl

/-- C7 counterexample: with an unnormalized first document (a paragraph
holding two plain runs a and b) and an unmergeable boundary (paragraph
against heading), the merged block sequence is NOT exactly the
concatenation of the two block lists: normalization collapses the two
runs. -/
theorem c7_concat_counterexample :
    ((PMNode.mk "paragraph" none
        (some [PMNode.mk "text" none none (some ['a']) none,
               PMNode.mk "text" none none (some ['b']) none]) none none).type ==
      (PMNode.mk "heading" none
        (some [PMNode.mk "text" none none (some ['c']) none]) none none).type &&
      attrsEqual (PMNode.mk "paragraph" none
        (some [PMNode.mk "text" none none (some ['a']) none,
               PMNode.mk "text" none none (some ['b']) none]) none none).attrs
        (PMNode.mk "heading" none
          (some [PMNode.mk "text" none none (some ['c']) none]) none none).attrs) = false ∧
    mergeDocuments
      (some ⟨some [PMNode.mk "paragraph" none
        (some [PMNode.mk "text" none none (some ['a']) none,
               PMNode.mk "text" none none (some ['b']) none]) none none]⟩)
      (some ⟨some [PMNode.mk "heading" none
        (some [PMNode.mk "text" none none (some ['c']) none]) none none]⟩) ≠
    ⟨some ([PMNode.mk "paragraph" none
        (some [PMNode.mk "text" none none (some ['a']) none,
               PMNode.mk "text" none none (some ['b']) none]) none none] ++
      [PMNode.mk "heading" none
        (some [PMNode.mk "text" none none (some ['c']) none]) none none])⟩ := by
  constructor
  · decide
  · rw [mergeDocuments_concat_branch
      (show ([PMNode.mk "paragraph" none
        (some [PMNode.mk "text" none none (some ['a']) none,
               PMNode.mk "text" none none (some ['b']) none]) none none]).getLast? =
        some (PMNode.mk "paragraph" none
          (some [PMNode.mk "text" none none (some ['a']) none,
                 PMNode.mk "text" none none (some ['b']) none]) none none) from rfl)
      (show ([PMNode.mk "heading" none
        (some [PMNode.mk "text" none none (some ['c']) none]) none none]).head? =
        some (PMNode.mk "heading" none
          (some [PMNode.mk "text" none none (some ['c']) none]) none none) from rfl)
      (by decide)]
    rw [normalizeInlineTextNodes_some]
    simp only [List.singleton_append]
    rw [normMap_cons, normMap_cons, normMap_nil]
    have hc1 : (PMNode.mk "paragraph" none
        (some [PMNode.mk "text" none none (some ['a']) none,
               PMNode.mk "text" none none (some ['b']) none]) none none).content =
        some [PMNode.mk "text" none none (some ['a']) none,
              PMNode.mk "text" none none (some ['b']) none] := rfl
    rw [normalizeBlockNode_of_content_some hc1]
    rw [mergeInlineArrays_cons, mergeOne_nil]
    rw [merge_two_text_runs _ _ (by simp [isTextNode]) (by simp [isTextNode])]
    rw [if_pos (by decide)]
    rw [normMap_cons, normMap_nil,
      normalizeBlockNode_of_content_none
        (show (mergeT (PMNode.mk "text" none none (some ['a']) none)
          (PMNode.mk "text" none none (some ['b']) none)).content = none from rfl)]
    have hc2 : (PMNode.mk "heading" none
        (some [PMNode.mk "text" none none (some ['c']) none]) none none).content =
        some [PMNode.mk "text" none none (some ['c']) none] := rfl
    rw [normalizeBlockNode_of_content_some hc2]
    rw [mergeInlineArrays_cons, mergeOne_nil, mergeInlineArrays_nil]
    rw [normMap_cons, normMap_nil,
      normalizeBlockNode_of_content_none
        (show (PMNode.mk "text" none none (some ['c']) none).content = none from rfl)]
    simp [mergeT, PMNode.withText, PMNode.withContent, PMDoc.mk.injEq]

/-- C7 amended: for already-normalized documents A and B whose boundary
blocks are not mergeable (different type or non-equal attrs), the block
sequence of merge(A, B) is exactly A's blocks followed by B's blocks. -/
theorem c7_concat_of_unmergeable_boundary (as bs' : List PMNode)
    (lastA firstB : PMNode)
    (hlast : as.getLast? = some lastA) (hhead : bs'.head? = some firstB)
    (hnormA : normalizeInlineTextNodes ⟨some as⟩ = ⟨some as⟩)
    (hnormB : normalizeInlineTextNodes ⟨some bs'⟩ = ⟨some bs'⟩)
    (hcond : (lastA.type == firstB.type &&
      attrsEqual lastA.attrs firstB.attrs) = false) :
    (mergeDocuments (some ⟨some as⟩) (some ⟨some bs'⟩)).content =
      some (as ++ bs') := by
  rw [mergeDocuments_concat_branch hlast hhead hcond]
  rw [normalizeInlineTextNodes_some] at hnormA hnormB ⊢
  rw [normMap_append]
  have hA : normMap as = as := by
    have := congrArg PMDoc.content hnormA
    simpa using this
  have hB : normMap bs' = bs' := by
    have := congrArg PMDoc.content hnormB
    simpa using this
  rw [hA, hB]

/-- Witness for c7_concat_of_unmergeable_boundary: normalized one-block
documents, a paragraph and a heading. -/
theorem c7_concat_of_unmergeable_boundary_witness :
    normalizeInlineTextNodes ⟨some [PMNode.mk "paragraph" none
      (some [PMNode.mk "text" none none (some ['a']) none]) none none]⟩ =
      ⟨some [PMNode.mk "paragraph" none
        (some [PMNode.mk "text" none none (some ['a']) none]) none none]⟩ ∧
    (mergeDocuments
      (some ⟨some [PMNode.mk "paragraph" none
        (some [PMNode.mk "text" none none (some ['a']) none]) none none]⟩)
      (some ⟨some [PMNode.mk "heading" none
        (some [PMNode.mk "text" none none (some ['b']) none]) none none]⟩)).content =
      some ([PMNode.mk "paragraph" none
        (some [PMNode.mk "text" none none (some ['a']) none]) none none] ++
        [PMNode.mk "heading" none
          (some [PMNode.mk "text" none none (some ['b']) none]) none none]) :=
  ⟨normalize_single_plain_block "paragraph" ['a'],
    c7_concat_of_unmergeable_boundary _ _ _ _ rfl rfl
      (normalize_single_plain_block "paragraph" ['a'])
      (normalize_single_plain_block "heading" ['b'])
      (by decide)⟩

/-- No two adjacent nodes of the list satisfy the text-merge condition
(two TextRuns whose marks compare equal by marksEqual). -/
def noAdjT (l : List PMNode) : Prop :=
  l.Chain' (fun a b => ¬(mergeableT a b = true))

theorem mergeableT_withText_right {p : PMNode} (x : PMNode) (s : List Char)
    (hpt : isTextNode p = true) :
    ∀ q, mergeableT q (p.withText (some s)) = mergeableT q p := by
  intro q
  simp only [mergeableT]
  have h1 : isTextNode (p.withText (some s)) = isTextNode p := by
    simp only [isTextNode, Bool.and_eq_true, beq_iff_eq] at hpt
    simp [isTextNode, hpt.1, hpt.2]
  rw [h1]
  simp

theorem mergeableT_withContent_right (p : PMNode) (c : Option (List PMNode)) :
    ∀ q, mergeableT q (p.withContent c) = mergeableT q p := by
  intro q
  simp only [mergeableT]
  have h1 : isTextNode (p.withContent c) = isTextNode p := by
    simp [isTextNode]
  rw [h1]
  simp

theorem noAdjT_replace_last {l : List PMNode} {p p' : PMNode}
    (hrep : ∀ q, mergeableT q p' = mergeableT q p)
    (h : noAdjT (l ++ [p])) : noAdjT (l ++ [p']) := by
  rw [noAdjT, List.chain'_append] at h ⊢
  refine ⟨h.1, List.chain'_singleton _, ?_⟩
  intro x hx y hy
  simp only [List.head?_cons, Option.mem_def, Option.some.injEq] at hy
  subst hy
  have := h.2.2 x hx p (by simp)
  rwa [hrep]

theorem noAdjT_push {l : List PMNode} {n : PMNode} (h : noAdjT l)
    (hlast : ∀ p, l.getLast? = some p → mergeableT p n = false) :
    noAdjT (l ++ [n]) := by
  rw [noAdjT, List.chain'_append]
  refine ⟨h, List.chain'_singleton _, ?_⟩
  intro x hx y hy
  simp only [List.head?_cons, Option.mem_def, Option.some.injEq] at hy
  subst hy
  simp only [Option.mem_def] at hx
  rw [hlast x hx]
  simp

theorem noAdjT_mergeOne {acc : List PMNode} (n : PMNode) (h : noAdjT acc) :
    noAdjT (mergeOne acc n) := by
  cases hlast : acc.getLast? with
  | none =>
    have : acc = [] := List.getLast?_eq_none_iff.mp hlast
    subst this
    rw [mergeOne_nil]
    exact List.chain'_singleton _
  | some p =>
    have hdec : acc = acc.dropLast ++ [p] := getLast?_decomp hlast
    by_cases hm : mergeableT p n = true
    · have hpt : isTextNode p = true := by
        simp only [mergeableT, Bool.and_eq_true] at hm
        exact hm.1.1
      rw [mergeOne_text n hlast hm]
      apply noAdjT_replace_last (mergeableT_withText_right n _ hpt)
      rwa [← hdec]
    · cases hpc : p.content with
      | some pc =>
        cases hnc : n.content with
        | some nc =>
          by_cases hcnd : mergeableC p n = true
          · rw [mergeOne_container n hlast (by simpa using hm) hpc hnc hcnd]
            apply noAdjT_replace_last (mergeableT_withContent_right p _)
            rwa [← hdec]
          · rw [mergeOne_push n hlast (by simpa using hm)
              (Or.inr (Or.inr (by simpa using hcnd)))]
            apply noAdjT_push h
            intro q hq
            rw [hlast] at hq
            cases hq
            simpa using hm
        | none =>
          rw [mergeOne_push n hlast (by simpa using hm) (Or.inr (Or.inl hnc))]
          apply noAdjT_push h
          intro q hq
          rw [hlast] at hq
          cases hq
          simpa using hm
      | none =>
        rw [mergeOne_push n hlast (by simpa using hm) (Or.inl hpc)]
        apply noAdjT_push h
        intro q hq
        rw [hlast] at hq
        cases hq
        simpa using hm

theorem noAdjT_mergeInlineArrays {acc : List PMNode} (r : List PMNode)
    (h : noAdjT acc) : noAdjT (mergeInlineArrays acc r) := by
  induction r generalizing acc with
  | nil => rw [mergeInlineArrays_nil]; exact h
  | cons x xs ih =>
    rw [mergeInlineArrays_cons]
    exact ih (noAdjT_mergeOne x h)

theorem mergeableT_normalizeBlockNode (x y : PMNode) :
    mergeableT (normalizeBlockNode x) (normalizeBlockNode y) = mergeableT x y := by
  have key : ∀ z : PMNode, isTextNode (normalizeBlockNode z) = isTextNode z ∧
      (normalizeBlockNode z).marks = z.marks := by
    intro z
    cases hz : z.content with
    | none => rw [normalizeBlockNode_of_content_none hz]; exact ⟨rfl, rfl⟩
    | some c =>
      rw [normalizeBlockNode_of_content_some hz]
      constructor
      · simp [isTextNode]
      · simp
  simp only [mergeableT, (key x).1, (key y).1, (key x).2, (key y).2]

/-- The invariant holds at every nesting level of the node: wherever a
content array appears, no two consecutive TextRuns in it have marks that
compare equal. -/
def deepNoAdj (n : PMNode) : Prop :=
  match h : n.content with
  | none => True
  | some c => noAdjT c ∧ ∀ x ∈ c.attach, deepNoAdj x.1
termination_by nsize n
decreasing_by
  have h1 := nsize_content h
  have h2 := nsize_le_of_mem x.2
  omega

theorem deepNoAdj_of_content_none {n : PMNode} (h : n.content = none) :
    deepNoAdj n := by
  rw [deepNoAdj]
  split
  · trivial
  · simp_all

theorem deepNoAdj_of_content_some {n : PMNode} {c : List PMNode}
    (h : n.content = some c) :
    deepNoAdj n ↔ (noAdjT c ∧ ∀ x ∈ c, deepNoAdj x) := by
  rw [deepNoAdj]
  split
  · simp_all
  · rename_i c' h'
    rw [h] at h'
    cases h'
    constructor
    · rintro ⟨h1, h2⟩
      refine ⟨h1, ?_⟩
      intro y hy
      exact h2 ⟨y, hy⟩ (List.mem_attach _ _)
    · rintro ⟨h1, h2⟩
      refine ⟨h1, ?_⟩
      intro y _
      exact h2 y.1 y.2

/-- Every block produced by normalizeBlockNode satisfies the invariant at
every nesting level. -/
theorem deepNoAdj_normalizeBlockNode (b : PMNode) :
    deepNoAdj (normalizeBlockNode b) := by
  have main : ∀ k b, nsize b ≤ k → deepNoAdj (normalizeBlockNode b) := by
    intro k
    induction k using Nat.strong_induction_on with
    | _ k ih =>
      intro b hb
      cases hc : b.content with
      | none =>
        rw [normalizeBlockNode_of_content_none hc]
        exact deepNoAdj_of_content_none hc
      | some c =>
        rw [normalizeBlockNode_of_content_some hc]
        rw [deepNoAdj_of_content_some
          (show (b.withContent (some (normMap (mergeInlineArrays [] c)))).content =
            some (normMap (mergeInlineArrays [] c)) by simp)]
        constructor
        · rw [normMap_eq_map, noAdjT, List.chain'_map]
          have h1 : noAdjT (mergeInlineArrays [] c) :=
            noAdjT_mergeInlineArrays c List.chain'_nil
          rw [noAdjT] at h1
          apply List.Chain'.imp _ h1
          intro a b' hab
          rwa [mergeableT_normalizeBlockNode]
        · intro x hx
          rw [normMap_eq_map] at hx
          rcases List.mem_map.mp hx with ⟨y, hy, rfl⟩
          have hy1 : nsize y ≤ lsize (mergeInlineArrays [] c) := nsize_le_of_mem hy
          have hy2 : lsize (mergeInlineArrays [] c) ≤ lsize c := by
            have := lsize_mergeInlineArrays [] c
            simpa [lsize] using this
          have hy3 : nsize y < k := by
            have hk : nsize b = 1 + lsize c := nsize_content hc
            omega
          exact ih (nsize y) hy3 y le_rfl
  exact main (nsize b) b le_rfl

theorem deepNoAdj_of_mem_normMap {l : List PMNode} {x : PMNode}
    (hx : x ∈ normMap l) : deepNoAdj x := by
  rw [normMap_eq_map] at hx
  rcases List.mem_map.mp hx with ⟨y, _, rfl⟩
  exact deepNoAdj_normalizeBlockNode y

theorem mergeDocuments_is_normalized (a b : Option PMDoc) :
    ∃ X, mergeDocuments a b = normalizeInlineTextNodes ⟨some X⟩ := by
  simp only [mergeDocuments]
  split
  · exact ⟨_, rfl⟩
  · split
    · exact ⟨_, rfl⟩
    · split
      · exact ⟨_, rfl⟩
      · exact ⟨_, rfl⟩

theorem splitDocumentAt_is_normalized (d : Option PMDoc) (pos : SplitPos) :
    splitDocumentAt d pos = (⟨some []⟩, ⟨some []⟩) ∨
    ∃ X Y, splitDocumentAt d pos =
      (normalizeInlineTextNodes ⟨some X⟩, normalizeInlineTextNodes ⟨some Y⟩) := by
  by_cases he : docBlocks d = []
  · exact Or.inl (splitDocumentAt_empty d pos he)
  · right
    cases pos with
    | coord t1 t2 =>
      rw [splitDocumentAt_coord d t1 t2 he]
      exact ⟨_, _, rfl⟩
    | abs p =>
      rw [splitDocumentAt_abs, splitDocumentAt_coord _ _ _ he]
      exact ⟨_, _, rfl⟩

/-- C8: every document returned by mergeDocuments and both halves
returned by splitDocumentAt, for arbitrary inputs (normalized or not,
nested or not), satisfy the normalization invariant: at every nesting
level of every block, no two consecutive TextRuns have marks comparing
equal under marksEqual (the merge engine's mark-set equality). -/
theorem c8_outputs_satisfy_invariant :
    (∀ a b : Option PMDoc, ∀ blk ∈ (mergeDocuments a b).content.getD [],
      deepNoAdj blk) ∧
    (∀ d : Option PMDoc, ∀ pos : SplitPos,
      (∀ blk ∈ (splitDocumentAt d pos).1.content.getD [], deepNoAdj blk) ∧
      (∀ blk ∈ (splitDocumentAt d pos).2.content.getD [], deepNoAdj blk)) := by
  constructor
  · intro a b blk hblk
    rcases mergeDocuments_is_normalized a b with ⟨X, hX⟩
    rw [hX, normalizeInlineTextNodes_some] at hblk
    simp only [Option.getD_some] at hblk
    exact deepNoAdj_of_mem_normMap hblk
  · intro d pos
    rcases splitDocumentAt_is_normalized d pos with h | ⟨X, Y, h⟩
    · rw [h]
      constructor <;> (intro blk hblk; simp at hblk)
    · rw [h]
      constructor <;>
        (intro blk hblk
         rw [normalizeInlineTextNodes_some] at hblk
         simp only [Option.getD_some] at hblk
         exact deepNoAdj_of_mem_normMap hblk)

theorem absolutePosToBlockOffset_nonpos {blocks : List PMNode} {p : Int}
    (h : p ≤ 0) :
    absolutePosToBlockOffset blocks p = absolutePosToBlockOffset blocks 0 := by
  simp only [absolutePosToBlockOffset]
  rw [if_pos h, if_pos (le_refl (0 : Int))]

theorem absolutePosToBlockOffset_overflow {blocks : List PMNode} {p : Int}
    (hpos : 0 < totalLength blocks) (h : (totalLength blocks : Int) ≤ p) :
    absolutePosToBlockOffset blocks p =
      absolutePosToBlockOffset blocks (totalLength blocks) := by
  simp only [absolutePosToBlockOffset]
  rw [if_neg (show ¬ p ≤ 0 by omega)]
  rw [if_neg (show ¬ (totalLength blocks : Int) ≤ 0 by omega)]
  rw [if_pos (show (p ≥ (totalLength blocks : Int) || blocks.isEmpty) = true by
    simp
    omega)]
  rw [if_pos (show ((totalLength blocks : Int) ≥ (totalLength blocks : Int) ||
      blocks.isEmpty) = true by simp)]

/-- C9: merge and split are total functions that silently normalize bad
input: a null document and a document without a content array behave as
the empty document in both operations, a nonpositive absolute split
position behaves as position 0, an absolute position at or past the total
length behaves as the total length (when the document has positive
length), a blockIndex offset pair behaves as its clamped-into-range form,
and every result document of both operations carries a content array. -/
theorem c9_total_and_clamping :
    (mergeDocuments none none = ⟨some []⟩) ∧
    (∀ b : Option PMDoc,
      mergeDocuments none b = mergeDocuments (some ⟨none⟩) b ∧
      mergeDocuments none b = mergeDocuments (some ⟨some []⟩) b ∧
      mergeDocuments b none = mergeDocuments b (some ⟨some []⟩)) ∧
    (∀ pos : SplitPos,
      splitDocumentAt none pos = (⟨some []⟩, ⟨some []⟩) ∧
      splitDocumentAt (some ⟨none⟩) pos = (⟨some []⟩, ⟨some []⟩)) ∧
    (∀ d : Option PMDoc, ∀ p : Int, p ≤ 0 →
      splitDocumentAt d (.abs p) = splitDocumentAt d (.abs 0)) ∧
    (∀ d : Option PMDoc, ∀ p : Int, 0 < totalLength (docBlocks d) →
      (totalLength (docBlocks d) : Int) ≤ p →
      splitDocumentAt d (.abs p) =
        splitDocumentAt d (.abs (totalLength (docBlocks d)))) ∧
    (∀ d : Option PMDoc, ∀ t1 t2 : Int,
      splitDocumentAt d (.coord t1 t2) =
        splitDocumentAt d (.coord
          (max 0 (min t1 (max 0 (((docBlocks d).length : Int) - 1)))) (max 0 t2))) ∧
    (∀ a b : Option PMDoc, (mergeDocuments a b).content.isSome = true) ∧
    (∀ d : Option PMDoc, ∀ pos : SplitPos,
      (splitDocumentAt d pos).1.content.isSome = true ∧
      (splitDocumentAt d pos).2.content.isSome = true) := by
  refine ⟨?_, ?_, ?_, ?_, ?_, ?_, ?_, ?_⟩
  · show mergeDocuments none none = ⟨some []⟩
    simp only [mergeDocuments]
    norm_num
    rw [normalizeInlineTextNodes_some, normMap_nil]
  · intro b
    exact ⟨rfl, rfl, rfl⟩
  · intro pos
    exact ⟨splitDocumentAt_empty none pos rfl, splitDocumentAt_empty _ pos rfl⟩
  · intro d p hp
    rw [splitDocumentAt_abs, splitDocumentAt_abs,
      absolutePosToBlockOffset_nonpos hp]
  · intro d p hpos hp
    rw [splitDocumentAt_abs, splitDocumentAt_abs,
      absolutePosToBlockOffset_overflow hpos hp]
  · intro d t1 t2
    by_cases he : docBlocks d = []
    · rw [splitDocumentAt_empty _ _ he, splitDocumentAt_empty _ _ he]
    · rw [splitDocumentAt_coord _ _ _ he, splitDocumentAt_coord _ _ _ he]
      have h1 : max 0 (min (max 0 (min t1 (max 0 (((docBlocks d).length : Int) - 1))))
          (max 0 (((docBlocks d).length : Int) - 1))) =
          max 0 (min t1 (max 0 (((docBlocks d).length : Int) - 1))) := by
        omega
      have h2 : max (0 : Int) (max 0 t2) = max 0 t2 := by omega
      rw [h1, h2]
  · intro a b
    rcases mergeDocuments_is_normalized a b with ⟨X, hX⟩
    rw [hX, normalizeInlineTextNodes_some]
    rfl
  · intro d pos
    rcases splitDocumentAt_is_normalized d pos with h | ⟨X, Y, h⟩
    · rw [h]
      exact ⟨rfl, rfl⟩
    · rw [h, normalizeInlineTextNodes_some, normalizeInlineTextNodes_some]
      exact ⟨rfl, rfl⟩

/-- Witness for c9_total_and_clamping: the clamping components applied to
a one-character document at position -3 and position 7. -/
theorem c9_total_and_clamping_witness :
    ((-3 : Int) ≤ 0 ∧
      splitDocumentAt (some ⟨some [PMNode.mk "paragraph" none
          (some [PMNode.mk "text" none none (some ['a']) none]) none none]⟩)
          (.abs (-3)) =
        splitDocumentAt (some ⟨some [PMNode.mk "paragraph" none
          (some [PMNode.mk "text" none none (some ['a']) none]) none none]⟩)
          (.abs 0)) ∧
    (0 < totalLength (docBlocks (some ⟨some [PMNode.mk "paragraph" none
        (some [PMNode.mk "text" none none (some ['a']) none]) none none]⟩)) ∧
      (totalLength (docBlocks (some ⟨some [PMNode.mk "paragraph" none
        (some [PMNode.mk "text" none none (some ['a']) none]) none none]⟩)) : Int) ≤ 7 ∧
      splitDocumentAt (some ⟨some [PMNode.mk "paragraph" none
          (some [PMNode.mk "text" none none (some ['a']) none]) none none]⟩)
          (.abs 7) =
        splitDocumentAt (some ⟨some [PMNode.mk "paragraph" none
          (some [PMNode.mk "text" none none (some ['a']) none]) none none]⟩)
          (.abs (totalLength (docBlocks (some ⟨some [PMNode.mk "paragraph" none
            (some [PMNode.mk "text" none none (some ['a']) none]) none none]⟩))))) :=
  ⟨⟨by norm_num, c9_total_and_clamping.2.2.2.1 _ (-3) (by norm_num)⟩,
   ⟨by decide, by decide,
    c9_total_and_clamping.2.2.2.2.1 _ 7 (by decide) (by decide)⟩⟩

/-- When the offset covers the whole inline length (and no empty text runs
hide at the end), everything goes to the left half. -/
theorem splitWalk_full (c : List PMNode)
    (hne : ∀ n ∈ c, isTextNode n = true → textD n ≠ []) :
    ∀ off : Int,
      ((c.map (fun n => if isTextNode n then (textD n).length else 1)).sum : Int) ≤ off →
      splitWalk off c = (c, []) := by
  induction c with
  | nil => intro off _; rfl
  | cons n rest ih =>
    intro off hoff
    simp only [List.map_cons, List.sum_cons] at hoff
    have hlen1 : 1 ≤ (if isTextNode n then (textD n).length else 1) := by
      by_cases ht : isTextNode n = true
      · rw [if_pos ht]
        have hnz := hne n (by simp) ht
        cases htd : textD n with
        | nil => exact absurd htd hnz
        | cons a l => simp [htd]
      · rw [if_neg ht]
    have hih := ih (fun m hm => hne m (List.mem_cons_of_mem _ hm))
    simp only [splitWalk]
    rw [if_neg (show ¬ off ≤ 0 by omega)]
    by_cases ht : isTextNode n = true
    · rw [if_pos ht]
      rw [if_pos ht] at hlen1 hoff
      rw [if_pos (show ((textD n).length : Int) ≤ off by omega)]
      rw [hih (off - (textD n).length) (by omega)]
    · rw [if_neg ht]
      rw [if_neg ht] at hlen1 hoff
      rw [if_pos (show off > 0 by omega)]
      rw [hih (off - 1) (by omega)]

@[simp] theorem withContent_self (b : PMNode) : b.withContent b.content = b := by
  cases b; rfl

/-- C10 amended: for a data-model document with at least one block,
positive total length and no empty TextRuns, splitting at or past the
total length returns the normalized document on the left and, on the
right, exactly one block carrying the last block's kind and attributes
with empty inline content. -/
theorem c10_split_at_or_past_end (bs : List PMNode) (hwf : wfFlatDoc bs)
    (hne : ∀ b ∈ bs, ∀ n ∈ b.content.getD [], isTextNode n = true → textD n ≠ [])
    (hbs : bs ≠ []) (hpos : 0 < totalLength bs) (p : Int)
    (hp : (totalLength bs : Int) ≤ p) :
    splitDocumentAt (some ⟨some bs⟩) (.abs p) =
      (normalizeInlineTextNodes ⟨some bs⟩,
       ⟨some [PMNode.mk (bs.getLast hbs).type (bs.getLast hbs).attrs
         (some []) none none]⟩) := by
  have hdb : docBlocks (some ⟨some bs⟩) = bs := rfl
  have hlen : 0 < bs.length := List.length_pos.mpr hbs
  have h_atb : absolutePosToBlockOffset bs p =
      (bs.length - 1, (blockLength (bs.getLast hbs) : Int)) := by
    simp only [absolutePosToBlockOffset]
    rw [if_neg (show ¬ p ≤ 0 by omega)]
    rw [if_pos (show (p ≥ (totalLength bs : Int) || bs.isEmpty) = true by
      simp
      omega)]
    rw [List.getLastD_eq_getLast?, List.getLast?_map, List.getLast?_eq_getLast bs hbs]
    rfl
  rw [splitDocumentAt_abs, hdb, h_atb]
  rw [splitDocumentAt_coord _ _ _ (by rw [hdb]; exact hbs)]
  rw [hdb]
  have hclamp : (max 0 (min (((bs.length - 1 : Nat) : Int))
      (max 0 ((bs.length : Int) - 1)))).toNat = bs.length - 1 := by
    omega
  rw [hclamp]
  have hoffc : max (0 : Int) ((blockLength (bs.getLast hbs) : Nat) : Int) =
      (blockLength (bs.getLast hbs) : Int) := by
    omega
  rw [hoffc]
  have hgetD : bs.getD (bs.length - 1) default = bs.getLast hbs := by
    rw [List.getD_eq_getElem bs default (by omega)]
    rw [List.getLast_eq_getElem]
  rw [hgetD]
  have hb : wfFlatBlock (bs.getLast hbs) := hwf _ (List.getLast_mem hbs)
  rcases wfFlatBlock_content hb with ⟨c, hc, hcwf⟩
  have hnec : ∀ n ∈ c, isTextNode n = true → textD n ≠ [] := by
    intro n hn
    have := hne (bs.getLast hbs) (List.getLast_mem hbs) n
    rw [hc] at this
    exact this hn
  have hblen : blockLength (bs.getLast hbs) =
      (c.map (fun n => if isTextNode n then (textD n).length else 1)).sum := by
    simp only [blockLength, hc]
  have hwalk : splitWalk (blockLength (bs.getLast hbs) : Int) c = (c, []) := by
    apply splitWalk_full c hnec
    rw [hblen]
  rw [splitBlockAtOffset_some hc]
  rw [hwalk]
  have hlast_eta : PMNode.mk (bs.getLast hbs).type (bs.getLast hbs).attrs
      (some c) none none = bs.getLast hbs := by
    rw [← wf_block_withContent hb (some c), ← hc, withContent_self]
  apply Prod.ext
  · show normalizeInlineTextNodes ⟨some (bs.take (bs.length - 1) ++
      [PMNode.mk (bs.getLast hbs).type (bs.getLast hbs).attrs (some c) none none])⟩ =
      normalizeInlineTextNodes ⟨some bs⟩
    have htake : bs.take (bs.length - 1) ++ [bs.getLast hbs] = bs := by
      rw [← List.dropLast_eq_take, List.dropLast_append_getLast hbs]
    rw [hlast_eta, htake]
  · show normalizeInlineTextNodes ⟨some (PMNode.mk (bs.getLast hbs).type
        (bs.getLast hbs).attrs (some []) none none ::
        bs.drop (bs.length - 1 + 1))⟩ =
      ⟨some [PMNode.mk (bs.getLast hbs).type (bs.getLast hbs).attrs
        (some []) none none]⟩
    rw [show bs.length - 1 + 1 = bs.length by omega, List.drop_length]
    rw [normalizeInlineTextNodes_some, normMap_cons, normMap_nil]
    rw [normalizeBlockNode_of_content_some
      (show (PMNode.mk (bs.getLast hbs).type (bs.getLast hbs).attrs
        (some []) none none).content = some [] from rfl)]
    rw [mergeInlineArrays_nil, normMap_nil]
    rfl

/-- C10 counterexample: the one-block document whose paragraph holds a
single empty TextRun has total length 0, so position 0 is at the length
boundary; the split does give a one-block right document, but its block
has NONempty inline content (it keeps the empty run), and the left
document is not the normalized input. -/
theorem c10_counterexample :
    (totalLength (docBlocks (some ⟨some [PMNode.mk "paragraph" none
      (some [PMNode.mk "text" none none (some []) none]) none none]⟩)) : Int) ≤ 0 ∧
    splitDocumentAt (some ⟨some [PMNode.mk "paragraph" none
        (some [PMNode.mk "text" none none (some []) none]) none none]⟩) (.abs 0) =
      (⟨some [PMNode.mk "paragraph" none (some []) none none]⟩,
       ⟨some [PMNode.mk "paragraph" none
         (some [PMNode.mk "text" none none (some []) none]) none none]⟩) ∧
    (splitDocumentAt (some ⟨some [PMNode.mk "paragraph" none
        (some [PMNode.mk "text" none none (some []) none]) none none]⟩) (.abs 0)).1 ≠
      normalizeInlineTextNodes ⟨some [PMNode.mk "paragraph" none
        (some [PMNode.mk "text" none none (some []) none]) none none]⟩ := by
  have hsplit : splitDocumentAt (some ⟨some [PMNode.mk "paragraph" none
      (some [PMNode.mk "text" none none (some []) none]) none none]⟩) (.abs 0) =
      (⟨some [PMNode.mk "paragraph" none (some []) none none]⟩,
       ⟨some [PMNode.mk "paragraph" none
         (some [PMNode.mk "text" none none (some []) none]) none none]⟩) := by
    rw [splitDocumentAt_abs]
    have h_atb : absolutePosToBlockOffset (docBlocks (some ⟨some [PMNode.mk "paragraph" none
        (some [PMNode.mk "text" none none (some []) none]) none none]⟩)) 0 = (0, 0) := by
      simp only [absolutePosToBlockOffset]
      rw [if_pos (le_refl (0 : Int))]
    rw [h_atb]
    rw [splitDocumentAt_coord _ _ _ (by simp [docBlocks])]
    have hclamp : (max 0 (min ((0 : Nat) : Int) (max 0 (((docBlocks (some ⟨some
        [PMNode.mk "paragraph" none (some [PMNode.mk "text" none none (some [])
          none]) none none]⟩)).length : Int) - 1)))).toNat = 0 := by
      norm_num
    rw [hclamp]
    have hoffc : max (0 : Int) 0 = 0 := by norm_num
    rw [hoffc]
    have hgd : (docBlocks (some ⟨some [PMNode.mk "paragraph" none
        (some [PMNode.mk "text" none none (some []) none]) none none]⟩)).getD 0 default =
        PMNode.mk "paragraph" none
          (some [PMNode.mk "text" none none (some []) none]) none none := rfl
    rw [hgd]
    rw [splitBlockAtOffset_some
      (show (PMNode.mk "paragraph" none
        (some [PMNode.mk "text" none none (some []) none]) none none).content =
        some [PMNode.mk "text" none none (some []) none] from rfl)]
    rw [splitWalk_nonpos (le_refl (0 : Int))]
    apply Prod.ext
    · show normalizeInlineTextNodes ⟨some ((docBlocks (some ⟨some [PMNode.mk "paragraph"
        none (some [PMNode.mk "text" none none (some []) none]) none none]⟩)).take 0 ++
        [PMNode.mk "paragraph" none (some []) none none])⟩ =
        ⟨some [PMNode.mk "paragraph" none (some []) none none]⟩
      rw [normalizeInlineTextNodes_some]
      rw [show ((docBlocks (some ⟨some [PMNode.mk "paragraph" none
        (some [PMNode.mk "text" none none (some []) none]) none none]⟩)).take 0 ++
        [PMNode.mk "paragraph" none (some []) none none]) =
        [PMNode.mk "paragraph" none (some []) none none] from rfl]
      rw [normMap_cons, normMap_nil]
      rw [normalizeBlockNode_of_content_some
        (show (PMNode.mk "paragraph" none (some []) none none).content =
          some [] from rfl)]
      rw [mergeInlineArrays_nil, normMap_nil]
      rfl
    · show normalizeInlineTextNodes ⟨some [PMNode.mk "paragraph" none
        (some [PMNode.mk "text" none none (some []) none]) none none]⟩ =
        ⟨some [PMNode.mk "paragraph" none
          (some [PMNode.mk "text" none none (some []) none]) none none]⟩
      exact normalize_single_plain_block "paragraph" []
  refine ⟨by decide, hsplit, ?_⟩
  rw [hsplit]
  rw [normalize_single_plain_block "paragraph" []]
  intro h
  have := congrArg PMDoc.content h
  simp at this

/-- Witness for c10_split_at_or_past_end: a paragraph with text and a
chip followed by a heading, split at position 99. -/
theorem c10_split_at_or_past_end_witness :
    wfFlatDoc [PMNode.mk "paragraph" none
        (some [PMNode.mk "text" none none (some ['a','b']) none,
          PMNode.mk "projectChip" (some [("projectId", AttrV.str "7")]) none none none])
        none none,
      PMNode.mk "heading" (some [("level", AttrV.int 1)])
        (some [PMNode.mk "text" none none (some ['x']) none]) none none] ∧
    0 < totalLength [PMNode.mk "paragraph" none
        (some [PMNode.mk "text" none none (some ['a','b']) none,
          PMNode.mk "projectChip" (some [("projectId", AttrV.str "7")]) none none none])
        none none,
      PMNode.mk "heading" (some [("level", AttrV.int 1)])
        (some [PMNode.mk "text" none none (some ['x']) none]) none none] ∧
    splitDocumentAt (some ⟨some [PMNode.mk "paragraph" none
        (some [PMNode.mk "text" none none (some ['a','b']) none,
          PMNode.mk "projectChip" (some [("projectId", AttrV.str "7")]) none none none])
        none none,
      PMNode.mk "heading" (some [("level", AttrV.int 1)])
        (some [PMNode.mk "text" none none (some ['x']) none]) none none]⟩) (.abs 99) =
      (normalizeInlineTextNodes ⟨some [PMNode.mk "paragraph" none
        (some [PMNode.mk "text" none none (some ['a','b']) none,
          PMNode.mk "projectChip" (some [("projectId", AttrV.str "7")]) none none none])
        none none,
      PMNode.mk "heading" (some [("level", AttrV.int 1)])
        (some [PMNode.mk "text" none none (some ['x']) none]) none none]⟩,
       ⟨some [PMNode.mk "heading" (some [("level", AttrV.int 1)])
         (some []) none none]⟩) :=
  ⟨by decide, by decide,
    c10_split_at_or_past_end _ (by decide) (by decide) (by simp) (by decide)
      99 (by decide)⟩

/-- pmSizeList distributes over list concatenation. -/
theorem pmSizeList_append (l r : List PMNode) :
    pmSizeList (l ++ r) = pmSizeList l + pmSizeList r := by
  induction l with
  | nil => simp [pmSizeList]
  | cons n ns ih => simp [pmSizeList, ih, Nat.add_assoc]

/-- A child's text length never exceeds its ProseMirror node size. -/
theorem childTextLength_le_pmNodeSize (n : PMNode) :
    childTextLength n ≤ pmNodeSize n := by
  cases n with
  | mk t a c x m =>
    cases c with
    | none =>
      simp only [childTextLength, pmNodeSize, isTextNode, textD, type_mk, text_mk]
      split <;> simp
    | some cc =>
      simp only [childTextLength, pmNodeSize, isTextNode, textD, type_mk, text_mk]
      split
      · exact Nat.le_refl _
      · omega

/-- The summed child text lengths of a node list never exceed its
ProseMirror content size. -/
theorem clSum_le_pmSizeList (cs : List PMNode) :
    (cs.map childTextLength).sum ≤ pmSizeList cs := by
  induction cs with
  | nil => simp [pmSizeList]
  | cons c rest ih =>
    simp only [List.map_cons, List.sum_cons, pmSizeList]
    exact Nat.add_le_add (childTextLength_le_pmNodeSize c) ih

/-- The offset-position content length of a block: the sum of the
_childTextLength values of its content children, as walked by both
position conversions. -/
def pmContentLength (b : PMNode) : Nat :=
  ((b.content.getD []).map childTextLength).sum

/-- The inner walk of computeBlockOffsetForAbsolutePos returns the inner
position unchanged whenever it lies between the accumulator and the
accumulator plus the total child text length. -/
theorem cboInner_eval (k : Int) (cs : List PMNode) (accum : Int)
    (h0 : accum ≤ k)
    (hk : k ≤ accum + ((cs.map childTextLength).sum : Nat)) :
    cboInner k accum cs = k := by
  induction cs generalizing accum with
  | nil =>
    simp only [List.map_nil, List.sum_nil, Nat.cast_zero, add_zero] at hk
    simp only [cboInner]
    omega
  | cons c rest ih =>
    simp only [List.map_cons, List.sum_cons, Nat.cast_add] at hk
    simp only [cboInner]
    split
    · rfl
    · rename_i hlt
      exact ih (accum + (childTextLength c : Int)) (by omega) (by omega)

/-- The child walk of computeAbsolutePosForBlockOffset succeeds on a
nonempty child list and lands exactly at pos plus the offset whenever the
offset lies between the accumulator and the accumulated content length. -/
theorem capWalk_eval (pos k accum : Int) (cs : List PMNode) (hne : cs ≠ [])
    (h0 : accum ≤ k)
    (hk : k ≤ accum + ((cs.map childTextLength).sum : Nat)) :
    capWalk pos k accum cs = some (pos + k) := by
  induction cs generalizing accum with
  | nil => exact absurd rfl hne
  | cons c rest ih =>
    simp only [List.map_cons, List.sum_cons, Nat.cast_add] at hk
    simp only [capWalk]
    split
    · rename_i hge
      have hcl : (0 : Int) ≤ (childTextLength c : Int) := Int.natCast_nonneg _
      congr 1
      omega
    · rename_i hlt
      cases rest with
      | nil =>
        exfalso
        simp only [List.map_nil, List.sum_nil, Nat.cast_zero, add_zero] at hk
        omega
      | cons d ds =>
        exact ih (accum + (childTextLength c : Int)) (by simp) (by omega) (by omega)

/-- The block loop of computeBlockOffsetForAbsolutePos skips any prefix of
blocks whose total size keeps the position strictly beyond them, advancing
the index and the running position accordingly. -/
theorem cboBlocks_skip (p : Int) (fb : Nat) (pre rest : List PMNode)
    (i : Nat) (running : Int)
    (h : running + (pmSizeList pre : Int) ≤ p) :
    cboBlocks p fb i running (pre ++ rest) =
      cboBlocks p fb (i + pre.length) (running + (pmSizeList pre : Int)) rest := by
  induction pre generalizing i running with
  | nil => simp [pmSizeList]
  | cons b pre' ih =>
    simp only [pmSizeList, Nat.cast_add] at h
    have hS : (0 : Int) ≤ (pmSizeList pre' : Int) := Int.natCast_nonneg _
    simp only [List.cons_append, cboBlocks]
    rw [if_neg (show ¬((running : Int) ≤ p ∧ p ≤ running + (pmNodeSize b : Int) - 1) by omega)]
    simp only [List.append_eq]
    rw [ih (i + 1) (running + (pmNodeSize b : Int)) (by omega)]
    simp only [List.length_cons, pmSizeList, Nat.cast_add]
    congr 1
    · omega
    · ring

/-- C4 counterexample: in the document consisting of a single empty
paragraph, absolute position 1 — a valid cursor position, lying strictly
inside the clamping range [1, content size] = [1, 2], so not at the
length boundary — converts to blockIndex 0, offset 0, yet converting
(0, 0) back yields absolute position 2, not 1: the round trip is not the
identity. -/
theorem c4_roundtrip_counterexample :
    computeBlockOffsetForAbsolutePos
      (some [PMNode.mk "paragraph" none (some []) none none]) 1 = (0, 0) ∧
    computeAbsolutePosForBlockOffset
      (some [PMNode.mk "paragraph" none (some []) none none]) 0 0 = 2 ∧
    (1 : Int) < (pmSizeList [PMNode.mk "paragraph" none (some []) none none] : Int) := by
  decide

/-- The node size of a non-text block with a content array is 2 plus the
size of the content. -/
theorem pmNodeSize_block (b : PMNode) (hnb : isTextNode b = false)
    (cs : List PMNode) (hc : b.content = some cs) :
    pmNodeSize b = 2 + pmSizeList cs := by
  cases b with
  | mk t a c x m =>
    simp only [content_mk] at hc
    subst hc
    simp only [isTextNode, type_mk, text_mk] at hnb
    simp [pmNodeSize, hnb]

/-- Forward half of the position round trip: an absolute position that is
the start of block i plus an in-content offset k converts to exactly
(i, k), for a non-text block with a nonempty content array. -/
theorem cbo_in_content (blocks : List PMNode) (i : Nat) (hi : i < blocks.length)
    (hnb : isTextNode (blocks.getD i default) = false)
    (cs : List PMNode) (hc : (blocks.getD i default).content = some cs)
    (hne : cs ≠ []) (k : Nat) (hk : k ≤ (cs.map childTextLength).sum) :
    computeBlockOffsetForAbsolutePos (some blocks)
      (1 + (pmSizeList (blocks.take i) : Int) + (k : Int)) = (i, (k : Int)) := by
  have hns := pmNodeSize_block (blocks.getD i default) hnb cs hc
  have hcl := clSum_le_pmSizeList cs
  have hdec : blocks = blocks.take i ++ blocks.getD i default :: blocks.drop (i + 1) := by
    rw [List.getD_eq_getElem blocks default hi, ← List.drop_eq_getElem_cons hi,
      List.take_append_drop]
  have hsize : (pmSizeList blocks : Int) = (pmSizeList (blocks.take i) : Int) +
      (pmNodeSize (blocks.getD i default) : Int) +
      (pmSizeList (blocks.drop (i + 1)) : Int) := by
    conv_lhs => rw [hdec]
    push_cast [pmSizeList_append, pmSizeList]
    ring
  have h1 : ((cs.map childTextLength).sum : Int) ≤ (pmSizeList cs : Int) := by
    exact_mod_cast hcl
  have h2 : (pmNodeSize (blocks.getD i default) : Int) = 2 + (pmSizeList cs : Int) := by
    exact_mod_cast hns
  have h3 : (k : Int) ≤ ((cs.map childTextLength).sum : Int) := by exact_mod_cast hk
  simp only [computeBlockOffsetForAbsolutePos]
  rw [show max 1 (min (1 + (pmSizeList (blocks.take i) : Int) + (k : Int))
      ((pmSizeList blocks : Nat) : Int)) =
      1 + (pmSizeList (blocks.take i) : Int) + (k : Int) by omega]
  have hskip := cboBlocks_skip (1 + (pmSizeList (blocks.take i) : Int) + (k : Int))
    (blocks.length - 1) (blocks.take i)
    (blocks.getD i default :: blocks.drop (i + 1)) 0 1 (by omega)
  rw [← hdec] at hskip
  rw [hskip]
  rw [show (blocks.take i).length = i by simp [List.length_take]; omega]
  simp only [Nat.zero_add, cboBlocks]
  split
  · split
    · rename_i hin hneg
      exfalso
      omega
    · rename_i hin hneg
      rw [hc]
      simp only [Option.getD_some]
      rw [show 1 + (pmSizeList (blocks.take i) : Int) + (k : Int) -
          (1 + (pmSizeList (blocks.take i) : Int)) = (k : Int) by ring]
      rw [cboInner_eval (k : Int) cs 0 (by omega) (by omega)]
  · rename_i hout
    exfalso
    exact hout ⟨by omega, by omega⟩

/-- Backward half of the position round trip: coordinates (i, k) with an
in-content offset k in a block with a nonempty content array convert to
the absolute position that is the start of block i plus k. -/
theorem cap_in_content (blocks : List PMNode) (i : Nat) (hi : i < blocks.length)
    (cs : List PMNode) (hc : (blocks.getD i default).content = some cs)
    (hne : cs ≠ []) (k : Nat) (hk : k ≤ (cs.map childTextLength).sum) :
    computeAbsolutePosForBlockOffset (some blocks) (i : Int) (k : Int) =
      1 + (pmSizeList (blocks.take i) : Int) + (k : Int) := by
  have h3 : (k : Int) ≤ ((cs.map childTextLength).sum : Int) := by exact_mod_cast hk
  simp only [computeAbsolutePosForBlockOffset]
  rw [show max 0 (min (i : Int) ((blocks.length : Int) - 1)) = (i : Int) by omega]
  rw [show max 0 (k : Int) = (k : Int) by omega]
  rw [if_neg (show ¬((i : Int) ≥ (blocks.length : Int)) by omega)]
  have htn : ((i : Int)).toNat = i := Int.toNat_natCast i
  rw [htn]
  have hget : blocks.get? i = some (blocks.getD i default) := by
    simp [List.get?_eq_getElem?, List.getElem?_eq_getElem, hi,
      List.getD_eq_getElem blocks default hi]
  rw [hget]
  simp only [hc, Option.getD_some]
  rw [capWalk_eval (1 + (pmSizeList (blocks.take i) : Int)) (k : Int) 0 cs hne
    (by omega) (by omega)]

/-- C4 amended: for a block i that is a real block (not a text node) with
a nonempty inline content array, and any offset k up to the block's
content length, the absolute position start-of-block-i plus k converts to
coordinates and back to exactly the same absolute position.  (The round
trip is NOT the identity in general: see the counterexample for a valid
in-range position inside an empty block where it moves the position.) -/
theorem c4_roundtrip_on_content_positions (blocks : List PMNode) (i : Nat)
    (hi : i < blocks.length)
    (hnb : isTextNode (blocks.getD i default) = false)
    (hcs : (blocks.getD i default).content.getD [] ≠ [])
    (k : Nat) (hk : k ≤ pmContentLength (blocks.getD i default)) :
    computeAbsolutePosForBlockOffset (some blocks)
      (((computeBlockOffsetForAbsolutePos (some blocks)
          (1 + (pmSizeList (blocks.take i) : Int) + (k : Int))).1 : Int))
      ((computeBlockOffsetForAbsolutePos (some blocks)
          (1 + (pmSizeList (blocks.take i) : Int) + (k : Int))).2) =
      1 + (pmSizeList (blocks.take i) : Int) + (k : Int) := by
  obtain ⟨cs, hc⟩ : ∃ cs, (blocks.getD i default).content = some cs := by
    cases h : (blocks.getD i default).content with
    | none => rw [h] at hcs; simp at hcs
    | some cs => exact ⟨cs, rfl⟩
  have hne : cs ≠ [] := by
    intro h
    rw [hc, h] at hcs
    simp at hcs
  have hk' : k ≤ (cs.map childTextLength).sum := by
    unfold pmContentLength at hk
    rw [hc] at hk
    simpa using hk
  rw [cbo_in_content blocks i hi hnb cs hc hne k hk']
  exact cap_in_content blocks i hi cs hc hne k hk'

/-- A concrete two-block document: a paragraph holding a text run and a
project chip, then a level-1 heading holding a text run. -/
def c4Doc : List PMNode :=
  [PMNode.mk "paragraph" none
      (some [PMNode.mk "text" none none (some ['a', 'b']) none,
        PMNode.mk "projectChip" (some [("projectId", AttrV.str "7")]) none none none])
      none none,
    PMNode.mk "heading" (some [("level", AttrV.int 1)])
      (some [PMNode.mk "text" none none (some ['x']) none]) none none]

/-- Witness for c4_roundtrip_on_content_positions: in the heading block of
the two-block document the in-content position at offset 1 survives the
round trip. -/
theorem c4_roundtrip_on_content_positions_witness :
    computeAbsolutePosForBlockOffset (some c4Doc)
      (((computeBlockOffsetForAbsolutePos (some c4Doc)
          (1 + (pmSizeList (c4Doc.take 1) : Int) + ((1 : Nat) : Int))).1 : Int))
      ((computeBlockOffsetForAbsolutePos (some c4Doc)
          (1 + (pmSizeList (c4Doc.take 1) : Int) + ((1 : Nat) : Int))).2) =
      1 + (pmSizeList (c4Doc.take 1) : Int) + ((1 : Nat) : Int) :=
  c4_roundtrip_on_content_positions c4Doc 1 (by decide) (by decide)
    (by simp [c4Doc]) 1 (by decide)
